import Mathlib

/-!
Verification of the ECDSA/DER/stealth-nonce core of the bitcoin-timestamping
repository (`src/secp256k1/src/ecdsa_impl.h`), as a shallow embedding in Lean.

Bytes are modelled as `Nat` values below 256, byte buffers as `List Nat`,
scalars mod the group order and field elements mod the curve prime as `Nat`
with explicit `%`.  Fallible C functions returning `int` 0/1 with
out-parameters are modelled as `Option`-returning functions.
-/

set_option maxRecDepth 4000000
set_option maxHeartbeats 100000000

namespace Timestamping

/-- The secp256k1 field prime `p` (SEC2 2.7.1). -/
def pF : Nat := 0xFFFFFFFFFFFFFFFFFFFFFFFFFFFFFFFFFFFFFFFFFFFFFFFFFFFFFFFEFFFFFC2F

/-- The secp256k1 group order `n` (constant `secp256k1_ecdsa_const_order_as_fe`). -/
def nOrd : Nat := 0xFFFFFFFFFFFFFFFFFFFFFFFFFFFFFFFEBAAEDCE6AF48A03BBFD25E8CD0364141

/-- `p - n` (constant `secp256k1_ecdsa_const_p_minus_order`). -/
def pMinusOrd : Nat := 0x14551231950B75FC4402DA1722FC9BAEE

/-- Big-endian byte-list to natural number (the value of a DER integer body,
and the semantics of `secp256k1_scalar_set_b32` before reduction). -/
def bytesToNat (l : List Nat) : Nat := l.foldl (fun a b => a * 256 + b) 0

/-- Big-endian encoding of `v` on exactly `k` bytes
(the semantics of `secp256k1_scalar_get_b32` / `secp256k1_fe_get_b32` for `k = 32`). -/
def beBytes : Nat → Nat → List Nat
  | 0, _ => []
  | k + 1, v => beBytes k (v / 256) ++ [v % 256]

/-- `secp256k1_der_read_len`: read a strict-DER length field from the front of
the buffer, returning the decoded length and the remaining bytes. -/
def derReadLen : List Nat → Option (Nat × List Nat)
  | [] => none
  | b1 :: rest =>
    if b1 = 0xFF then none
    else if b1 < 0x80 then some (b1, rest)
    else if b1 = 0x80 then none
    else
      let lenleft := b1 - 0x80
      if rest.length < lenleft then none
      else if rest.headI = 0 then none
      else if 8 < lenleft then none
      else
        let len := bytesToNat (rest.take lenleft)
        let rest2 := rest.drop lenleft
        if rest2.length < len then none
        else if len < 128 then none
        else some (len, rest2)

/-- `secp256k1_der_parse_integer`: parse one DER INTEGER field into a scalar
(canonicalized to 0 on overflow), returning the scalar and the remaining bytes. -/
def derParseInt : List Nat → Option (Nat × List Nat)
  | [] => none
  | t :: rest =>
    if t ≠ 0x02 then none
    else match derReadLen rest with
      | none => none
      | some (rlen, r2) =>
        if rlen = 0 ∨ r2.length < rlen then none
        else if r2.headI = 0x00 ∧ 1 < rlen ∧ r2.tail.headI < 0x80 then none
        else if r2.headI = 0xFF ∧ 1 < rlen ∧ 0x80 ≤ r2.tail.headI then none
        else
          let neg : Bool := decide (0x80 ≤ r2.headI)
          let rlen2 := if r2.headI = 0 then rlen - 1 else rlen
          let r3 := if r2.headI = 0 then r2.tail else r2
          let v := bytesToNat (r3.take rlen2)
          let scl := if neg ∨ 32 < rlen2 ∨ nOrd ≤ v then 0 else v
          some (scl, r3.drop rlen2)

/-- `secp256k1_ecdsa_sig_parse`: strict-DER parse of a signature into `(r, s)`. -/
def sigParse (sig : List Nat) : Option (Nat × Nat) :=
  match sig with
  | [] => none
  | b :: rest =>
    if b ≠ 0x30 then none
    else match derReadLen rest with
      | none => none
      | some (rlen, r2) =>
        if rlen ≠ r2.length then none
        else match derParseInt r2 with
          | none => none
          | some (rr, r3) =>
            match derParseInt r3 with
            | none => none
            | some (rs, r4) =>
              if r4 ≠ [] then none else some (rr, rs)

/-- The leading-zero-stripping loop of `secp256k1_ecdsa_sig_serialize`
(`while (len > 1 && p[0] == 0 && p[1] < 0x80) { len--; p++; }`). -/
def stripLz : List Nat → List Nat
  | a :: b :: t => if a = 0 ∧ b < 0x80 then stripLz (b :: t) else a :: b :: t
  | l => l

/-- Result of `secp256k1_ecdsa_sig_serialize`: the returned flag, the value
written to the in/out `size` parameter, and the bytes written to the output
buffer (`none` when the function returns before writing). -/
structure SerResult where
  ok : Bool
  size : Nat
  out : Option (List Nat)
  deriving DecidableEq, Repr

/-- The serializer's encoding of one scalar: 33 bytes `00 ‖ big-endian value`
with leading zeros stripped by the `while` loop. -/
def encInt (v : Nat) : List Nat := stripLz (0 :: beBytes 32 v)

/-- `secp256k1_ecdsa_sig_serialize` for a caller buffer of capacity `cap`. -/
def sigSerialize (cap : Nat) (ar as : Nat) : SerResult :=
  if cap < 6 + (encInt as).length + (encInt ar).length then
    ⟨false, 6 + (encInt as).length + (encInt ar).length, none⟩
  else
    ⟨true, 6 + (encInt as).length + (encInt ar).length,
      some ([0x30, 4 + (encInt as).length + (encInt ar).length, 0x02, (encInt ar).length] ++
        encInt ar ++ [0x02, (encInt as).length] ++ encInt as)⟩

/-! ### Byte-encoding lemmas -/

theorem bytesToNat_nil : bytesToNat [] = 0 := rfl

theorem bytesToNat_zero_cons (l : List Nat) : bytesToNat (0 :: l) = bytesToNat l := rfl

theorem foldl_byte_init (l : List Nat) (a : Nat) :
    l.foldl (fun a b => a * 256 + b) a = a * 256 ^ l.length + l.foldl (fun a b => a * 256 + b) 0 := by
  induction l generalizing a with
  | nil => simp
  | cons b t ih =>
    simp only [List.foldl_cons, List.length_cons]
    rw [ih (a * 256 + b), ih (0 * 256 + b)]
    ring

theorem bytesToNat_cons (b : Nat) (l : List Nat) :
    bytesToNat (b :: l) = b * 256 ^ l.length + bytesToNat l := by
  simpa [bytesToNat] using foldl_byte_init l b

theorem beBytes_length (k v : Nat) : (beBytes k v).length = k := by
  induction k generalizing v with
  | zero => rfl
  | succ k ih => simp [beBytes, ih]

theorem beBytes_mem_lt (k v : Nat) : ∀ b ∈ beBytes k v, b < 256 := by
  induction k generalizing v with
  | zero => simp [beBytes]
  | succ k ih =>
    intro b hb
    simp only [beBytes, List.mem_append, List.mem_singleton] at hb
    rcases hb with hb | hb
    · exact ih _ _ hb
    · omega

theorem bytesToNat_beBytes (k v : Nat) (hv : v < 256 ^ k) :
    bytesToNat (beBytes k v) = v := by
  induction k generalizing v with
  | zero =>
    have hv0 : v = 0 := Nat.lt_one_iff.mp (by simpa using hv)
    subst hv0
    rfl
  | succ k ih =>
    have h2 : v / 256 < 256 ^ k := by
      rw [Nat.div_lt_iff_lt_mul (by norm_num)]
      calc v < 256 ^ (k + 1) := hv
        _ = 256 ^ k * 256 := by ring
    simp only [beBytes, bytesToNat, List.foldl_append, List.foldl_cons, List.foldl_nil]
    have := ih (v / 256) h2
    simp only [bytesToNat] at this
    rw [this]
    omega

theorem bytesToNat_lt (l : List Nat) (h : ∀ b ∈ l, b < 256) :
    bytesToNat l < 256 ^ l.length := by
  induction l with
  | nil => simp [bytesToNat]
  | cons b t ih =>
    rw [bytesToNat_cons]
    have hb : b < 256 := h b (List.mem_cons_self _ _)
    have ht : bytesToNat t < 256 ^ t.length := ih fun x hx => h x (List.mem_cons_of_mem _ hx)
    have : b * 256 ^ t.length + bytesToNat t < (b + 1) * 256 ^ t.length := by
      have := ht; nlinarith [ht]
    calc b * 256 ^ t.length + bytesToNat t < (b + 1) * 256 ^ t.length := this
      _ ≤ 256 * 256 ^ t.length := by
          have : b + 1 ≤ 256 := hb
          exact Nat.mul_le_mul_right _ this
      _ = 256 ^ (t.length + 1) := by ring
      _ = 256 ^ (b :: t).length := by simp

/-! ### Lemmas about the zero-stripping loop -/

theorem stripLz_val : ∀ l : List Nat, bytesToNat (stripLz l) = bytesToNat l
  | [] => rfl
  | [_] => rfl
  | a :: b :: t2 => by
    by_cases h : a = 0 ∧ b < 0x80
    · have hs : stripLz (a :: b :: t2) = stripLz (b :: t2) := by
        simp [stripLz, h]
      rw [hs]
      have hv : bytesToNat (a :: b :: t2) = bytesToNat (b :: t2) := by
        rw [h.1]
        exact bytesToNat_zero_cons (b :: t2)
      rw [hv]
      exact stripLz_val (b :: t2)
    · simp [stripLz, h]

theorem stripLz_suffix : ∀ l : List Nat, stripLz l <:+ l
  | [] => List.suffix_refl _
  | [a] => List.suffix_refl _
  | a :: b :: t2 => by
    by_cases h : a = 0 ∧ b < 0x80
    · have hs : stripLz (a :: b :: t2) = stripLz (b :: t2) := by simp [stripLz, h]
      rw [hs]
      exact (stripLz_suffix (b :: t2)).trans (List.suffix_cons _ _)
    · simp [stripLz, h]

theorem stripLz_ne_nil : ∀ l : List Nat, l ≠ [] → stripLz l ≠ []
  | [], h => absurd rfl h
  | [a], _ => by simp [stripLz]
  | a :: b :: t, _ => by
    by_cases hc : a = 0 ∧ b < 0x80
    · have hs : stripLz (a :: b :: t) = stripLz (b :: t) := by simp [stripLz, hc]
      rw [hs]; exact stripLz_ne_nil _ (by simp)
    · simp [stripLz, hc]

theorem stripLz_head_lt : ∀ l : List Nat, l.headI < 0x80 → (stripLz l).headI < 0x80
  | [], h => h
  | [a], h => h
  | a :: b :: t, h => by
    by_cases hc : a = 0 ∧ b < 0x80
    · have hs : stripLz (a :: b :: t) = stripLz (b :: t) := by simp [stripLz, hc]
      rw [hs]
      exact stripLz_head_lt (b :: t) (by simpa using hc.2)
    · simpa [stripLz, hc] using h

theorem stripLz_stop : ∀ (l : List Nat) (a b : Nat) (t : List Nat),
    stripLz l = a :: b :: t → ¬(a = 0 ∧ b < 0x80)
  | [], a, b, t, h => by simp [stripLz] at h
  | [c], a, b, t, h => by simp [stripLz] at h
  | c :: d :: t2, a, b, t, h => by
    by_cases hc : c = 0 ∧ d < 0x80
    · have hs : stripLz (c :: d :: t2) = stripLz (d :: t2) := by simp [stripLz, hc]
      rw [hs] at h
      exact stripLz_stop _ _ _ _ h
    · have hs : stripLz (c :: d :: t2) = c :: d :: t2 := by simp [stripLz, hc]
      rw [hs] at h
      cases h
      exact hc

theorem stripLz_zero_head (m : List Nat) (h : (stripLz (0 :: m)).headI ≠ 0) :
    (stripLz (0 :: m)).length ≤ m.length := by
  match m with
  | [] => simp [stripLz] at h
  | b :: t =>
    by_cases hc : b < 0x80
    · have hs : stripLz (0 :: b :: t) = stripLz (b :: t) := by simp [stripLz, hc]
      rw [hs]
      exact (stripLz_suffix (b :: t)).length_le
    · have hs : stripLz (0 :: b :: t) = 0 :: b :: t := by simp [stripLz, hc]
      rw [hs] at h
      simp at h

/-! ### DER parser helper lemmas -/

theorem headI_append (l r : List Nat) (h : l ≠ []) : (l ++ r).headI = l.headI := by
  cases l with
  | nil => exact absurd rfl h
  | cons a t => rfl

theorem derReadLen_short (k : Nat) (rest : List Nat) (hk : k < 0x80) :
    derReadLen (k :: rest) = some (k, rest) := by
  simp only [derReadLen]
  rw [if_neg (by omega), if_pos hk]

theorem encInt_ne_nil (v : Nat) : encInt v ≠ [] := stripLz_ne_nil _ (by simp)

theorem encInt_len_le (v : Nat) : (encInt v).length ≤ 33 := by
  have := (stripLz_suffix (0 :: beBytes 32 v)).length_le
  simpa [beBytes_length] using this

theorem encInt_head_lt (v : Nat) : (encInt v).headI < 0x80 :=
  stripLz_head_lt _ (by simp)

theorem encInt_val (v : Nat) (hv : v < 256 ^ 32) : bytesToNat (encInt v) = v := by
  unfold encInt
  rw [stripLz_val, bytesToNat_zero_cons, bytesToNat_beBytes _ _ hv]

theorem encInt_len_32 (v : Nat) (h : (encInt v).headI ≠ 0) : (encInt v).length ≤ 32 := by
  have := stripLz_zero_head (beBytes 32 v) h
  simpa [beBytes_length] using this

theorem nOrd_lt_pow : nOrd < 256 ^ 32 := by norm_num [nOrd]

/-- General behavior of `secp256k1_der_parse_integer` on a well-formed INTEGER
field with short-form length: the parse succeeds, the scalar is the content's
value unless the overflow policy zeroes it, and exactly the field is consumed. -/
theorem derParseInt_ok (c rest : List Nat)
    (hne : c ≠ [])
    (hlen : c.length < 0x80)
    (hpad0 : ¬(c.headI = 0 ∧ 1 < c.length ∧ c.tail.headI < 0x80))
    (hpadF : ¬(c.headI = 0xFF ∧ 1 < c.length ∧ 0x80 ≤ c.tail.headI)) :
    derParseInt (0x02 :: c.length :: (c ++ rest)) =
      some (if 0x80 ≤ c.headI ∨ 32 < (if c.headI = 0 then c.length - 1 else c.length)
              ∨ nOrd ≤ bytesToNat c then 0 else bytesToNat c, rest) := by
  obtain ⟨h0, tl, rfl⟩ : ∃ h0 tl, c = h0 :: tl := by
    cases c with
    | nil => exact absurd rfl hne
    | cons a t => exact ⟨a, t, rfl⟩
  simp only [derParseInt]
  rw [if_neg (by norm_num)]
  rw [derReadLen_short _ _ (by simpa using hlen)]
  cases tl with
  | nil =>
    simp only [List.length_cons, List.length_nil, List.singleton_append, List.length_append,
      List.headI, List.tail]
    rw [if_neg (by simp)]
    rw [if_neg (by omega)]
    rw [if_neg (by omega)]
    by_cases hz : h0 = 0
    · subst hz
      norm_num [bytesToNat_cons, bytesToNat_nil, nOrd]
    · rw [if_neg hz, if_neg hz]
      simp [List.take_succ_cons, List.take_zero, List.drop_succ_cons, List.drop_zero,
        decide_eq_true_eq]
  | cons b t2 =>
    simp only [List.headI, List.tail, List.cons_append, List.length_cons,
      List.length_append] at hpad0 hpadF ⊢
    rw [if_neg (by omega)]
    rw [if_neg (by simpa using hpad0)]
    rw [if_neg (by simpa using hpadF)]
    have htake0 : List.take (t2.length + 1 + 1 - 1) (b :: (t2 ++ rest)) = b :: t2 := by
      have h1 : t2.length + 1 + 1 - 1 = ((b :: t2) : List Nat).length := by simp
      have h2 : b :: (t2 ++ rest) = (b :: t2) ++ rest := by simp
      rw [h1, h2, List.take_left]
    have hdrop0 : List.drop (t2.length + 1 + 1 - 1) (b :: (t2 ++ rest)) = rest := by
      have h1 : t2.length + 1 + 1 - 1 = ((b :: t2) : List Nat).length := by simp
      have h2 : b :: (t2 ++ rest) = (b :: t2) ++ rest := by simp
      rw [h1, h2, List.drop_left]
    by_cases hz : h0 = 0
    · subst hz
      simp only [eq_self_iff_true, if_true, List.tail]
      rw [htake0, hdrop0, bytesToNat_zero_cons]
      simp [decide_eq_true_eq]
    · rw [if_neg hz, if_neg hz]
      have h1 : t2.length + 1 + 1 = ((h0 :: b :: t2) : List Nat).length := by simp
      have h2 : h0 :: b :: (t2 ++ rest) = (h0 :: b :: t2) ++ rest := by simp
      have htake : List.take (t2.length + 1 + 1) (h0 :: b :: (t2 ++ rest)) = h0 :: b :: t2 := by
        rw [h1, h2, List.take_left]
      have hdrop : List.drop (t2.length + 1 + 1) (h0 :: b :: (t2 ++ rest)) = rest := by
        rw [h1, h2, List.drop_left]
      rw [htake, hdrop]
      simp [decide_eq_true_eq]

/-- Parsing the DER INTEGER field emitted by the serializer recovers the scalar. -/
theorem derParseInt_enc (v : Nat) (hv : v < nOrd) (rest : List Nat) :
    derParseInt (0x02 :: (encInt v).length :: (encInt v ++ rest)) = some (v, rest) := by
  have hhead : (encInt v).headI < 0x80 := encInt_head_lt v
  have hpad0 : ¬((encInt v).headI = 0 ∧ 1 < (encInt v).length ∧ (encInt v).tail.headI < 0x80) := by
    rintro ⟨hz, hlen, hlt⟩
    obtain ⟨h0, b, t2, he⟩ : ∃ h0 b t2, encInt v = h0 :: b :: t2 := by
      cases hE : encInt v with
      | nil => exact absurd hE (encInt_ne_nil v)
      | cons a t =>
        cases t with
        | nil => rw [hE] at hlen; simp at hlen
        | cons b t2 => exact ⟨a, b, t2, rfl⟩
    rw [he] at hz hlt
    simp only [List.headI, List.tail] at hz hlt
    exact stripLz_stop (0 :: beBytes 32 v) h0 b t2 he ⟨hz, hlt⟩
  have hpadF : ¬((encInt v).headI = 0xFF ∧ 1 < (encInt v).length ∧
      0x80 ≤ (encInt v).tail.headI) := by
    rintro ⟨hz, -, -⟩
    omega
  rw [derParseInt_ok _ _ (encInt_ne_nil v) (by have := encInt_len_le v; omega) hpad0 hpadF]
  rw [encInt_val v (lt_trans hv nOrd_lt_pow)]
  rw [if_neg ?_]
  push_neg
  refine ⟨by omega, ?_, by omega⟩
  by_cases hz : (encInt v).headI = 0
  · rw [if_pos hz]
    have := encInt_len_le v
    omega
  · rw [if_neg hz]
    exact encInt_len_32 v hz

theorem sigSerialize_size (cap ar as : Nat) :
    (sigSerialize cap ar as).size = 6 + (encInt as).length + (encInt ar).length := by
  unfold sigSerialize
  split
  · rfl
  · rfl

/-- C3: DER round-trip — for canonical `(r, s)` (both in `(0, n)`, `s ≤ n/2`),
serialization with sufficient capacity succeeds and parsing the produced bytes
returns exactly `(r, s)`. -/
theorem der_serialize_parse_round_trip (r s cap : Nat)
    (hr0 : 0 < r) (hr : r < nOrd) (hs0 : 0 < s) (hs : s < nOrd) (hlow : s ≤ nOrd / 2)
    (hcap : (sigSerialize cap r s).size ≤ cap) :
    ∃ l, (sigSerialize cap r s).out = some l ∧ sigParse l = some (r, s) := by
  have hsize := sigSerialize_size cap r s
  have hlr := encInt_len_le r
  have hls := encInt_len_le s
  have hcap2 : ¬(cap < 6 + (encInt s).length + (encInt r).length) := by omega
  have hout : (sigSerialize cap r s).out =
      some ([0x30, 4 + (encInt s).length + (encInt r).length, 0x02, (encInt r).length] ++
        encInt r ++ [0x02, (encInt s).length] ++ encInt s) := by
    unfold sigSerialize
    rw [if_neg hcap2]
  refine ⟨_, hout, ?_⟩
  have hL : ([0x30, 4 + (encInt s).length + (encInt r).length, 0x02, (encInt r).length] ++
        encInt r ++ [0x02, (encInt s).length] ++ encInt s) =
      0x30 :: (4 + (encInt s).length + (encInt r).length) ::
        (0x02 :: (encInt r).length :: (encInt r ++ (0x02 :: (encInt s).length :: encInt s))) := by
    simp
  rw [hL]
  have hlen2 : ¬(4 + (encInt s).length + (encInt r).length ≠
      (0x02 :: (encInt r).length :: (encInt r ++ (0x02 :: (encInt s).length :: encInt s))).length) := by
    simp [List.length_append]
    omega
  have hS : derParseInt (0x02 :: (encInt s).length :: encInt s) = some (s, []) := by
    have h0 : (0x02 :: (encInt s).length :: encInt s) =
        (0x02 :: (encInt s).length :: (encInt s ++ ([] : List Nat))) := by simp
    rw [h0, derParseInt_enc s hs []]
  simp only [sigParse, derReadLen_short _ _ (show 4 + (encInt s).length + (encInt r).length < 0x80 by omega),
    if_neg (show ¬(0x30 ≠ 0x30) by norm_num), if_neg hlen2,
    derParseInt_enc r hr (0x02 :: (encInt s).length :: encInt s), hS]
  simp

/-- C3 witness. -/
theorem der_serialize_parse_round_trip_witness :
    ∃ l, (sigSerialize 72 1 1).out = some l ∧ sigParse l = some (1, 1) :=
  der_serialize_parse_round_trip 1 1 72 (by norm_num) (by norm_num [nOrd])
    (by norm_num) (by norm_num [nOrd]) (by norm_num [nOrd]) (by decide)

/-- C6: overflow canonicalization — a correctly encoded DER INTEGER field whose
value is `≥ n`, whose first content byte has its high bit set, or whose content
exceeds 32 bytes after removing at most one leading zero byte, parses
successfully with the scalar canonicalized to 0. -/
theorem derParseInt_overflow_to_zero (c rest : List Nat)
    (hne : c ≠ []) (hlen : c.length < 0x80)
    (hpad0 : ¬(c.headI = 0 ∧ 1 < c.length ∧ c.tail.headI < 0x80))
    (hpadF : ¬(c.headI = 0xFF ∧ 1 < c.length ∧ 0x80 ≤ c.tail.headI))
    (hover : nOrd ≤ bytesToNat c ∨ 0x80 ≤ c.headI ∨
      32 < (if c.headI = 0 then c.length - 1 else c.length)) :
    derParseInt (0x02 :: c.length :: (c ++ rest)) = some (0, rest) := by
  rw [derParseInt_ok c rest hne hlen hpad0 hpadF, if_pos (by tauto)]

/-- C6 witness: the 33-byte field `00 ‖ n` (value exactly the group order). -/
theorem derParseInt_overflow_to_zero_witness :
    derParseInt (0x02 :: (0x00 :: beBytes 32 nOrd).length :: ((0x00 :: beBytes 32 nOrd) ++ [7])) =
      some (0, [7]) :=
  derParseInt_overflow_to_zero (0x00 :: beBytes 32 nOrd) [7] (by decide) (by decide)
    (by decide) (by decide) (by decide)

/-- C7: strict DER rejection — the length-field reader rejects the byte `0xFF`,
indefinite length `0x80`, a leading zero among long-form length bytes, and a
long-form encoding of a length below 128; the integer parser rejects excessive
`0x00` and `0xFF` padding; and these rejections propagate to signature parsing. -/
theorem der_strict_rejections :
    (∀ r : List Nat, derReadLen (0xFF :: r) = none) ∧
    (∀ r : List Nat, derReadLen (0x80 :: r) = none) ∧
    (∀ (b : Nat) (r : List Nat), 0x80 < b → b < 0xFF →
      derReadLen (b :: 0 :: r) = none) ∧
    (∀ (b : Nat) (r : List Nat), 0x80 < b → b < 0xFF →
      bytesToNat (r.take (b - 0x80)) < 128 → derReadLen (b :: r) = none) ∧
    (∀ (k c2 : Nat) (r : List Nat), 2 ≤ k → k < 0x80 → c2 < 0x80 →
      derParseInt (0x02 :: k :: 0x00 :: c2 :: r) = none) ∧
    (∀ (k c2 : Nat) (r : List Nat), 2 ≤ k → k < 0x80 → 0x80 ≤ c2 →
      derParseInt (0x02 :: k :: 0xFF :: c2 :: r) = none) ∧
    (∀ r : List Nat, sigParse (0x30 :: 0xFF :: r) = none) ∧
    (∀ r : List Nat, sigParse (0x30 :: 0x80 :: r) = none) := by
  have hFF : ∀ r : List Nat, derReadLen (0xFF :: r) = none := by
    intro r; simp [derReadLen]
  have h80 : ∀ r : List Nat, derReadLen (0x80 :: r) = none := by
    intro r; simp [derReadLen]
  refine ⟨hFF, h80, ?_, ?_, ?_, ?_, ?_, ?_⟩
  · intro b r hb1 hb2
    simp only [derReadLen, List.headI]
    split_ifs <;> first | rfl | omega
  · intro b r hb1 hb2 hlow
    simp only [derReadLen]
    split_ifs <;> first | rfl | omega
  · intro k c2 r hk2 hk80 hc2
    simp only [derParseInt, derReadLen_short _ _ hk80, List.headI, List.tail_cons,
      List.length_cons]
    split_ifs <;> first | rfl | omega | (simp_all; omega)
  · intro k c2 r hk2 hk80 hc2
    simp only [derParseInt, derReadLen_short _ _ hk80, List.headI, List.tail_cons,
      List.length_cons]
    split_ifs <;> first | rfl | omega | (simp_all; omega)
  · intro r
    simp only [sigParse, hFF]
    rw [if_neg (by norm_num)]
  · intro r
    simp only [sigParse, h80]
    rw [if_neg (by norm_num)]

/-- C7 witness: each rejection applied at a concrete malformed input. -/
theorem der_strict_rejections_witness :
    derReadLen [0xFF, 1] = none ∧ derReadLen [0x80, 1] = none ∧
    derReadLen [0x81, 0, 5] = none ∧ derReadLen [0x81, 5] = none ∧
    derParseInt [0x02, 2, 0x00, 0x01] = none ∧
    derParseInt [0x02, 2, 0xFF, 0x80] = none ∧
    sigParse [0x30, 0xFF, 0] = none ∧ sigParse [0x30, 0x80, 0] = none :=
  ⟨der_strict_rejections.1 [1], der_strict_rejections.2.1 [1],
   der_strict_rejections.2.2.1 0x81 [5] (by norm_num) (by norm_num),
   der_strict_rejections.2.2.2.1 0x81 [5] (by norm_num) (by norm_num) (by decide),
   der_strict_rejections.2.2.2.2.1 2 0x01 [] (by norm_num) (by norm_num) (by norm_num),
   der_strict_rejections.2.2.2.2.2.1 2 0x80 [] (by norm_num) (by norm_num) (by norm_num),
   der_strict_rejections.2.2.2.2.2.2.1 [0], der_strict_rejections.2.2.2.2.2.2.2 [0]⟩

/-- C8: serialize capacity shortfall — with insufficient capacity the serializer
reports the required size, fails, writes nothing; and any capacity of at least
the reported size yields a successful write of exactly that many bytes. -/
theorem sigSerialize_shortfall (ar as cap : Nat)
    (h : cap < (sigSerialize cap ar as).size) :
    (sigSerialize cap ar as).ok = false ∧ (sigSerialize cap ar as).out = none ∧
    ∀ cap2, (sigSerialize cap ar as).size ≤ cap2 →
      (sigSerialize cap2 ar as).ok = true ∧
      ∃ l, (sigSerialize cap2 ar as).out = some l ∧
        l.length = (sigSerialize cap ar as).size := by
  rw [sigSerialize_size] at h
  have h1 : (sigSerialize cap ar as).ok = false ∧ (sigSerialize cap ar as).out = none := by
    unfold sigSerialize
    rw [if_pos (by omega)]
    exact ⟨rfl, rfl⟩
  refine ⟨h1.1, h1.2, ?_⟩
  intro cap2 hcap2
  rw [sigSerialize_size] at hcap2 ⊢
  unfold sigSerialize
  rw [if_neg (by omega)]
  refine ⟨rfl, _, rfl, ?_⟩
  simp [List.length_append]
  omega

/-- C8 witness. -/
theorem sigSerialize_shortfall_witness :
    (sigSerialize 0 1 1).ok = false ∧ (sigSerialize 0 1 1).out = none ∧
    ∀ cap2, (sigSerialize 0 1 1).size ≤ cap2 →
      (sigSerialize cap2 1 1).ok = true ∧
      ∃ l, (sigSerialize cap2 1 1).out = some l ∧ l.length = (sigSerialize 0 1 1).size :=
  sigSerialize_shortfall 1 1 0 (by decide)

/-! ### Arithmetic substrate

The big-integer scalar/field/point arithmetic is an external collaborator of
the verified core (`scalar.h`, `field.h`, `group.h`, `ecmult.h`); it is
modelled here as mathematically correct modular and elliptic-curve arithmetic.
-/

/-- Modelled from the spec: fast modular exponentiation, realizing the
substrate's modular inverses (`secp256k1_scalar_inverse`, field inverses)
via Fermat's little theorem.  `fuel` bounds the bit length of `e`. -/
def powMod : Nat → Nat → Nat → Nat → Nat
  | 0, _, _, m => 1 % m
  | fuel + 1, a, e, m =>
    if e = 0 then 1 % m
    else
      let h := powMod fuel (a * a % m) (e / 2) m
      if e % 2 = 1 then h * a % m else h

/-- Modelled from the spec: `secp256k1_scalar_inverse` — inverse mod the group order. -/
def invN (a : Nat) : Nat := powMod 256 (a % nOrd) (nOrd - 2) nOrd

/-- Modelled from the spec: field inverse mod the curve prime. -/
def invP (a : Nat) : Nat := powMod 256 (a % pF) (pF - 2) pF

/-- Modelled from the spec: an affine curve point (`secp256k1_ge`), with a
representable point at infinity; coordinates are canonical residues mod `p`. -/
inductive Pt where
  | inf : Pt
  | aff (x y : Nat) : Pt
  deriving DecidableEq, Repr

/-- Modelled from the spec: the tangent slope `3x²/(2y)` at an affine point. -/
def slopeD (x y : Nat) : Nat := 3 * x * x % pF * invP (2 * y % pF) % pF

/-- Modelled from the spec: the chord slope `(y₁ - y₂)/(x₁ - x₂)`. -/
def slopeA (x1 y1 x2 y2 : Nat) : Nat :=
  (y1 + (pF - y2)) % pF * invP ((x1 + (pF - x2)) % pF) % pF

/-- Modelled from the spec: the x-coordinate `l² - x₁ - x₂` of a sum. -/
def addXD (l x1 x2 : Nat) : Nat := (l * l + (pF - x1) + (pF - x2)) % pF

/-- Modelled from the spec: the y-coordinate `l(x₁ - x₃) - y₁` of a sum. -/
def addYD (l x1 x3 y1 : Nat) : Nat :=
  (l * ((x1 + (pF - x3)) % pF) % pF + (pF - y1)) % pF

/-- Modelled from the spec: point doubling on `y² = x³ + 7`. -/
def ptDbl : Pt → Pt
  | .inf => .inf
  | .aff x y =>
    if y = 0 then .inf
    else .aff (addXD (slopeD x y) x x)
      (addYD (slopeD x y) x (addXD (slopeD x y) x x) y)

/-- Modelled from the spec: point addition on `y² = x³ + 7`. -/
def ptAdd : Pt → Pt → Pt
  | .inf, q => q
  | p, .inf => p
  | .aff x1 y1, .aff x2 y2 =>
    if x1 = x2 then
      if (y1 + y2) % pF = 0 then .inf
      else ptDbl (.aff x1 y1)
    else .aff (addXD (slopeA x1 y1 x2 y2) x1 x2)
      (addYD (slopeA x1 y1 x2 y2) x1 (addXD (slopeA x1 y1 x2 y2) x1 x2) y1)

/-- Modelled from the spec: double-and-add scalar multiplication;
`fuel` bounds the bit length of the scalar. -/
def ptMul : Nat → Nat → Pt → Pt
  | 0, _, _ => .inf
  | fuel + 1, k, p =>
    if k = 0 then .inf
    else if k % 2 = 1 then ptAdd (ptMul fuel (k / 2) (ptDbl p)) p
    else ptMul fuel (k / 2) (ptDbl p)

/-- The secp256k1 generator. -/
def ptG : Pt :=
  .aff 0x79BE667EF9DCBBAC55A06295CE870B07029BFCDB2DCE28D959F2815B16F81798
       0x483ADA7726A3C4655DA4FBFC0E1108A8FD17B448A68554199C47D08FFB10D4B8

/-- Modelled from the spec: `secp256k1_ecmult_gen` — multiply the generator by
a scalar (the result already normalized to affine by `secp256k1_ge_set_gej`). -/
def ecmultGen (k : Nat) : Pt := ptMul 256 k ptG

/-- Modelled from the spec: `secp256k1_ecmult` — compute `u2·A + u1·G`. -/
def ecmult (a : Pt) (u2 u1 : Nat) : Pt := ptAdd (ptMul 256 u2 a) (ptMul 256 u1 ptG)

/-- The normalized affine x-coordinate as read by `secp256k1_fe_get_b32`
(the point at infinity yields zeroed coordinates). -/
def ptX : Pt → Nat
  | .inf => 0
  | .aff x _ => x

/-- The normalized affine y-coordinate. -/
def ptY : Pt → Nat
  | .inf => 0
  | .aff _ y => y

/-! ### The domain-separated hash -/

/-- Modelled from the spec: 32-bit right rotation for the SHA-256 compression
function (the hash primitive is external; its midstate constants are in
`secp256k1_ecdsa_verify_timestamped_r` / `secp256k1_generate_secure_k`). -/
def rotr32 (x k : Nat) : Nat := ((x >>> k) ||| (x <<< (32 - k))) % 4294967296

/-- Modelled from the spec: SHA-256 small sigma 0. -/
def ssig0 (x : Nat) : Nat := rotr32 x 7 ^^^ rotr32 x 18 ^^^ (x >>> 3)

/-- Modelled from the spec: SHA-256 small sigma 1. -/
def ssig1 (x : Nat) : Nat := rotr32 x 17 ^^^ rotr32 x 19 ^^^ (x >>> 10)

/-- Modelled from the spec: SHA-256 big sigma 0. -/
def bsig0 (x : Nat) : Nat := rotr32 x 2 ^^^ rotr32 x 13 ^^^ rotr32 x 22

/-- Modelled from the spec: SHA-256 big sigma 1. -/
def bsig1 (x : Nat) : Nat := rotr32 x 6 ^^^ rotr32 x 11 ^^^ rotr32 x 25

/-- Modelled from the spec: SHA-256 round constants. -/
def shaK : List Nat :=
  [1116352408, 1899447441, 3049323471, 3921009573, 961987163, 1508970993, 2453635748, 2870763221,
   3624381080, 310598401, 607225278, 1426881987, 1925078388, 2162078206, 2614888103, 3248222580,
   3835390401, 4022224774, 264347078, 604807628, 770255983, 1249150122, 1555081692, 1996064986,
   2554220882, 2821834349, 2952996808, 3210313671, 3336571891, 3584528711, 113926993, 338241895,
   666307205, 773529912, 1294757372, 1396182291, 1695183700, 1986661051, 2177026350, 2456956037,
   2730485921, 2820302411, 3259730800, 3345764771, 3516065817, 3600352804, 4094571909, 275423344,
   430227734, 506948616, 659060556, 883997877, 958139571, 1322822218, 1537002063, 1747873779,
   1955562222, 2024104815, 2227730452, 2361852424, 2428436474, 2756734187, 3204031479, 3329325298]

/-- Modelled from the spec: the 16 big-endian message words of a 64-byte block. -/
def blockWords (block : List Nat) : List Nat :=
  (List.range 16).map fun i => bytesToNat ((block.drop (4 * i)).take 4)

/-- Modelled from the spec: SHA-256 message-schedule extension. -/
def shaExtend : Nat → List Nat → List Nat
  | 0, w => w
  | fuel + 1, w =>
    let m := w.length
    let t := (w.getD (m - 16) 0 + ssig0 (w.getD (m - 15) 0) + w.getD (m - 7) 0 +
      ssig1 (w.getD (m - 2) 0)) % 4294967296
    shaExtend fuel (w ++ [t])

/-- Modelled from the spec: one SHA-256 round. -/
def shaRound (st : List Nat) (kw : Nat × Nat) : List Nat :=
  match st with
  | [a, b, c, d, e, f, g, h] =>
    let t1 := (h + bsig1 e + ((e &&& f) ^^^ ((e ^^^ 0xFFFFFFFF) &&& g)) + kw.1 + kw.2) % 4294967296
    let t2 := (bsig0 a + ((a &&& b) ^^^ (a &&& c) ^^^ (b &&& c))) % 4294967296
    [(t1 + t2) % 4294967296, a, b, c, (d + t1) % 4294967296, e, f, g]
  | l => l

/-- Modelled from the spec: the SHA-256 compression function. -/
def shaCompress (h : List Nat) (block : List Nat) : List Nat :=
  let ws := shaExtend 48 (blockWords block)
  let fin := (shaK.zip ws).foldl shaRound h
  List.zipWith (fun a b => (a + b) % 4294967296) h fin

/-- The fixed alternate initial compression state set by
`secp256k1_ecdsa_verify_timestamped_r` and `secp256k1_generate_secure_k`. -/
def shaMidstate : List Nat :=
  [0x9cecba11, 0x23925381, 0x11679112, 0xd1627e0f, 0x97c87550, 0x003cc765, 0x90f61164, 0x33e9b66a]

/-- Big-endian 32-bit word list to natural number. -/
def wordsToNat (l : List Nat) : Nat := l.foldl (fun a w => a * 4294967296 + w) 0

/-- Modelled from the spec: the domain-separated hash `H*` — SHA-256 started
from the fixed midstate with the byte counter preset to 64, absorbing exactly
`factor ‖ d` (32 + 32 bytes) and finalizing (total length 128 bytes). -/
def hashHstar (factor d : List Nat) : Nat :=
  let st1 := shaCompress shaMidstate (factor ++ d)
  let pad := 0x80 :: (List.replicate 55 0 ++ beBytes 8 1024)
  wordsToNat (shaCompress st1 pad)

/-! ### ECDSA core: sign and verify -/

/-- The raw signature scalar `s` computed by `secp256k1_ecdsa_sig_sign` before
low-s normalization: `nonce⁻¹ · (r·seckey + message) mod n`. -/
def signS0 (seckey msg nonce : Nat) : Nat :=
  invN nonce * (((ptX (ecmultGen nonce) % nOrd) * seckey % nOrd + msg) % nOrd) % nOrd

/-- The recovery id computed by `secp256k1_ecdsa_sig_sign` before the low-s
flip: `(overflow << 1) | fe_is_odd(R.y)`. -/
def signRecidRaw (nonce : Nat) : Nat :=
  (if nOrd ≤ ptX (ecmultGen nonce) then 2 else 0) + ptY (ecmultGen nonce) % 2

/-- Result of `secp256k1_ecdsa_sig_sign`: success flag, `r`, `s`, recovery id. -/
structure SignResult where
  ok : Bool
  r : Nat
  s : Nat
  recid : Nat
  deriving DecidableEq, Repr

/-- `secp256k1_ecdsa_sig_sign`. -/
def sigSign (seckey msg nonce : Nat) : SignResult :=
  if nOrd / 2 < signS0 seckey msg nonce then
    ⟨decide (ptX (ecmultGen nonce) % nOrd ≠ 0 ∧ (nOrd - signS0 seckey msg nonce) % nOrd ≠ 0),
      ptX (ecmultGen nonce) % nOrd, (nOrd - signS0 seckey msg nonce) % nOrd,
      signRecidRaw nonce ^^^ 1⟩
  else
    ⟨decide (ptX (ecmultGen nonce) % nOrd ≠ 0 ∧ signS0 seckey msg nonce ≠ 0),
      ptX (ecmultGen nonce) % nOrd, signS0 seckey msg nonce, signRecidRaw nonce⟩

/-- `secp256k1_gej_eq_x_var` on the normalized recomputed point: test whether
the field element `xr` equals the point's x-coordinate (mod `p`). -/
def gejEqXVar (xr : Nat) : Pt → Bool
  | .inf => false
  | .aff x _ => xr % pF == x

/-- `secp256k1_ecdsa_sig_verify`. -/
def sigVerify (sigr sigs : Nat) (pub : Pt) (msg : Nat) : Bool :=
  if sigr = 0 ∨ sigs = 0 then false
  else if ecmult pub (invN sigs * sigr % nOrd) (invN sigs * msg % nOrd) = .inf then false
  else if gejEqXVar sigr (ecmult pub (invN sigs * sigr % nOrd) (invN sigs * msg % nOrd)) then
    true
  else if pMinusOrd ≤ sigr then false
  else if gejEqXVar (sigr + nOrd)
      (ecmult pub (invN sigs * sigr % nOrd) (invN sigs * msg % nOrd)) then true
  else false

/-! ### Stealth nonce protocol -/

/-- `secp256k1_generate_stealth_J`: returned flag and the 32 output bytes
(the x-coordinate of `j·G`); the scalar-decode overflow flag is ignored. -/
def genStealthJ (factorBytes : List Nat) : Nat × List Nat :=
  let s := bytesToNat factorBytes % nOrd
  (1, beBytes 32 (ptX (ecmultGen s)))

/-- `secp256k1_generate_secure_k`: returned flag, the 32 stealth-factor bytes,
and the 32 nonce bytes `k = j + H*(factor ‖ d) mod n`. -/
def genSecureK (j d : List Nat) : Nat × List Nat × List Nat :=
  let jS := bytesToNat j % nOrd
  let factor := beBytes 32 (ptX (ecmultGen jS))
  let h := hashHstar factor d % nOrd
  (1, factor, beBytes 32 ((jS + h) % nOrd))

/-- `secp256k1_ecdsa_verify_timestamped_r`: compare
`factor + (H*(factor ‖ d)·G).x mod n` (scalar addition) with `expectedR`. -/
def verifyTimestampedR (d factor : List Nat) (expectedR : Nat) : Bool :=
  let h := hashHstar factor d % nOrd
  let visible := ptX (ecmultGen h) % nOrd
  let factorS := bytesToNat factor % nOrd
  (factorS + visible) % nOrd == expectedR

/-! ### Claims on the stealth protocol and ECDSA core -/

/-- C9: totality of the stealth operations — `secp256k1_generate_stealth_J` and
`secp256k1_generate_secure_k` return 1 and produce 32-byte outputs on every
input, including byte strings decoding to 0 or to a value at least the group
order (the scalar-decode overflow flag is ignored). -/
theorem stealth_totality :
    (∀ fb : List Nat, (genStealthJ fb).1 = 1 ∧ (genStealthJ fb).2.length = 32) ∧
    (∀ j d : List Nat, (genSecureK j d).1 = 1 ∧ (genSecureK j d).2.1.length = 32 ∧
      (genSecureK j d).2.2.length = 32) := by
  constructor
  · intro fb
    exact ⟨rfl, beBytes_length _ _⟩
  · intro j d
    exact ⟨rfl, beBytes_length _ _, beBytes_length _ _⟩

/-- C1 (amended): `verifyCommitment(d, factor, r)` for the factor produced by
`deriveSecureNonce(j, d)` accepts exactly the §4.3 scalar sum
`factor + (H*(factor‖d)·G).x mod n`; the `r` produced by `sign` with the
derived nonce `k` does not satisfy this in general. -/
theorem verifyTimestampedR_accepts_scalar_sum (j d : List Nat) (r : Nat) :
    verifyTimestampedR d (genSecureK j d).2.1 r = true ↔
      r = (bytesToNat (genSecureK j d).2.1 % nOrd +
        ptX (ecmultGen (hashHstar (genSecureK j d).2.1 d % nOrd)) % nOrd) % nOrd := by
  unfold verifyTimestampedR
  rw [beq_iff_eq]
  exact eq_comm

/-- C1 counterexample: at `j = 1`, `d = 0³²`, `seckey = msg = 1`, signing with
the nonce derived by `deriveSecureNonce` succeeds, but `verifyCommitment`
rejects the resulting signature component `r`. -/
theorem stealth_round_trip_fails :
    (sigSign 1 1 (bytesToNat (genSecureK (beBytes 32 1) (List.replicate 32 0)).2.2)).ok = true ∧
    verifyTimestampedR (List.replicate 32 0) (genSecureK (beBytes 32 1) (List.replicate 32 0)).2.1
      (sigSign 1 1 (bytesToNat (genSecureK (beBytes 32 1) (List.replicate 32 0)).2.2)).r
      = false := by
  constructor
  · decide
  · decide

/-- C4: low-s normalization — a successfully produced signature has
`s ≤ n/2`, and when the raw `s` was in the high half, the final `s` is
`n − s_raw` and the low bit of the recovery id is flipped. -/
theorem sign_low_s (seckey msg nonce : Nat)
    (hok : (sigSign seckey msg nonce).ok = true) :
    (sigSign seckey msg nonce).s ≤ nOrd / 2 ∧
    (nOrd / 2 < signS0 seckey msg nonce →
      (sigSign seckey msg nonce).s = nOrd - signS0 seckey msg nonce ∧
      (sigSign seckey msg nonce).recid = signRecidRaw nonce ^^^ 1) := by
  clear hok
  have hs0 : signS0 seckey msg nonce < nOrd := by
    unfold signS0
    exact Nat.mod_lt _ (by norm_num [nOrd])
  have hodd : nOrd % 2 = 1 := by norm_num [nOrd]
  unfold sigSign
  by_cases h : nOrd / 2 < signS0 seckey msg nonce
  · rw [if_pos h]
    have hmod : (nOrd - signS0 seckey msg nonce) % nOrd = nOrd - signS0 seckey msg nonce :=
      Nat.mod_eq_of_lt (by omega)
    refine ⟨?_, fun _ => ⟨?_, rfl⟩⟩
    · show (nOrd - signS0 seckey msg nonce) % nOrd ≤ nOrd / 2
      rw [hmod]
      omega
    · show (nOrd - signS0 seckey msg nonce) % nOrd = nOrd - signS0 seckey msg nonce
      exact hmod
  · rw [if_neg h]
    exact ⟨show signS0 seckey msg nonce ≤ nOrd / 2 by omega, fun hh => absurd hh h⟩

/-- C4 witness: at `seckey = msg = 1`, `nonce = 5` the raw `s` is high. -/
theorem sign_low_s_witness :
    (sigSign 1 1 5).ok = true ∧ nOrd / 2 < signS0 1 1 5 ∧
    ((sigSign 1 1 5).s ≤ nOrd / 2 ∧
      (nOrd / 2 < signS0 1 1 5 →
        (sigSign 1 1 5).s = nOrd - signS0 1 1 5 ∧
        (sigSign 1 1 5).recid = signRecidRaw 5 ^^^ 1)) :=
  ⟨by decide, by decide, sign_low_s 1 1 5 (by decide)⟩

/-- C5: verification's two-candidate x test — with `r, s` non-zero and the
recomputed point `R' = s⁻¹·r·pubkey + s⁻¹·m·G` not at infinity, the signature
is accepted exactly when `r` matches `R'`'s x-coordinate directly, or
`r + n < p` and `r + n` matches it. -/
theorem verify_two_candidate_x (r s msg : Nat) (pub : Pt)
    (hr : r ≠ 0) (hs : s ≠ 0) (hrn : r < nOrd)
    (hinf : ecmult pub (invN s * r % nOrd) (invN s * msg % nOrd) ≠ .inf) :
    (sigVerify r s pub msg = true ↔
      (gejEqXVar r (ecmult pub (invN s * r % nOrd) (invN s * msg % nOrd)) = true ∨
        (r + nOrd < pF ∧
          gejEqXVar (r + nOrd) (ecmult pub (invN s * r % nOrd) (invN s * msg % nOrd)) = true))) := by
  clear hrn
  unfold sigVerify
  rw [if_neg (by tauto)]
  rw [if_neg hinf]
  have hpn : pMinusOrd + nOrd = pF := by norm_num [pMinusOrd, nOrd, pF]
  by_cases h1 : gejEqXVar r (ecmult pub (invN s * r % nOrd) (invN s * msg % nOrd)) = true
  · simp [h1]
  · rw [if_neg h1]
    by_cases h2 : pMinusOrd ≤ r
    · rw [if_pos h2]
      simp only [Bool.false_eq_true, false_iff]
      push_neg
      refine ⟨fun hc => absurd hc h1, fun hlt => absurd hlt (by omega)⟩
    · rw [if_neg h2]
      by_cases h3 : gejEqXVar (r + nOrd) (ecmult pub (invN s * r % nOrd) (invN s * msg % nOrd)) = true
      · rw [if_pos h3]
        simp only [true_iff]
        exact Or.inr ⟨by omega, h3⟩
      · rw [if_neg h3]
        simp only [Bool.false_eq_true, false_iff]
        push_neg
        exact ⟨fun hc => absurd hc h1, fun _ => fun hc => absurd hc h3⟩

/-- C5 witness: a point whose x-coordinate `n + 2` lies in `[n, p)`; the
signature `(r, s) = (2, 2)` on message 0 against it is accepted, specifically
through the `r + n` fallback test. -/
theorem verify_two_candidate_x_witness :
    sigVerify 2 2
      (Pt.aff 0xFFFFFFFFFFFFFFFFFFFFFFFFFFFFFFFEBAAEDCE6AF48A03BBFD25E8CD0364143
        0x36B1AA62EB77C1973025CBCBEA9740EED8EACDAB8772268B395064453269D1D3) 0 = true ∧
    gejEqXVar 2
      (ecmult (Pt.aff 0xFFFFFFFFFFFFFFFFFFFFFFFFFFFFFFFEBAAEDCE6AF48A03BBFD25E8CD0364143
        0x36B1AA62EB77C1973025CBCBEA9740EED8EACDAB8772268B395064453269D1D3)
        (invN 2 * 2 % nOrd) (invN 2 * 0 % nOrd)) = false ∧
    2 + nOrd < pF ∧
    gejEqXVar (2 + nOrd)
      (ecmult (Pt.aff 0xFFFFFFFFFFFFFFFFFFFFFFFFFFFFFFFEBAAEDCE6AF48A03BBFD25E8CD0364143
        0x36B1AA62EB77C1973025CBCBEA9740EED8EACDAB8772268B395064453269D1D3)
        (invN 2 * 2 % nOrd) (invN 2 * 0 % nOrd)) = true :=
  ⟨(verify_two_candidate_x 2 2 0
      (Pt.aff 0xFFFFFFFFFFFFFFFFFFFFFFFFFFFFFFFEBAAEDCE6AF48A03BBFD25E8CD0364143
        0x36B1AA62EB77C1973025CBCBEA9740EED8EACDAB8772268B395064453269D1D3)
      (by decide) (by decide) (by decide) (by decide)).mpr
      (Or.inr ⟨by decide, by decide⟩),
   by decide, by decide, by decide⟩

/-! ### Modular exponentiation, and primality of the group order

The correctness of the substrate's Fermat inverses requires the primality of
the moduli; the group order `n` is certified by a Pratt/Lucas certificate
checked through `powMod`. -/

theorem powMod_lt : ∀ (fuel a e m : Nat), 1 < m → powMod fuel a e m < m
  | 0, _, _, m, hm => Nat.mod_lt _ (by omega)
  | fuel + 1, a, e, m, hm => by
    simp only [powMod]
    split
    · exact Nat.mod_lt _ (by omega)
    · split
      · exact Nat.mod_lt _ (by omega)
      · exact powMod_lt fuel _ _ m hm

theorem powMod_cast : ∀ (fuel a e m : Nat), e < 2 ^ fuel → 0 < m →
    ((powMod fuel a e m : Nat) : ZMod m) = ((a : Nat) : ZMod m) ^ e
  | 0, a, e, m, he, _ => by
    have he0 : e = 0 := by omega
    subst he0
    simp only [powMod, ZMod.natCast_mod, Nat.cast_one, pow_zero]
  | fuel + 1, a, e, m, he, hm => by
    rw [powMod]
    by_cases h0 : e = 0
    · subst h0
      rw [if_pos rfl, ZMod.natCast_mod, Nat.cast_one, pow_zero]
    · rw [if_neg h0]
      have hdiv : e / 2 < 2 ^ fuel := by
        have h2 : 2 ^ (fuel + 1) = 2 * 2 ^ fuel := by ring
        omega
      have hih := powMod_cast fuel (a * a % m) (e / 2) m hdiv hm
      rw [ZMod.natCast_mod, Nat.cast_mul] at hih
      by_cases hodd : e % 2 = 1
      · rw [if_pos hodd]
        push_cast [ZMod.natCast_mod]
        rw [hih, ← pow_two, ← pow_mul]
        rw [← pow_succ]
        congr 1
        omega
      · rw [if_neg hodd]
        rw [hih, ← pow_two, ← pow_mul]
        congr 1
        omega

/-- A Lucas primality certificate: `qs` is the full multiset of prime factors
of `P - 1` and `a` is a witness of order `P - 1` modulo `P`. -/
theorem lucas_cert (P a : Nat) (qs : List Nat)
    (h2 : 2 ≤ P) (hsize : P ≤ 2 ^ 256)
    (hfac : qs.prod = P - 1)
    (hqs : ∀ q ∈ qs, Nat.Prime q)
    (ha1 : powMod 256 a (P - 1) P = 1 % P)
    (had : ∀ q ∈ qs, powMod 256 a ((P - 1) / q) P ≠ 1 % P) :
    Nat.Prime P := by
  haveI : NeZero P := ⟨by omega⟩
  have hem : P - 1 < 2 ^ 256 := by omega
  have hcast : ∀ e, e < 2 ^ 256 → ((powMod 256 a e P : Nat) : ZMod P) = (a : ZMod P) ^ e :=
    fun e he => powMod_cast 256 a e P he (by omega)
  apply lucas_primality P (a : ZMod P)
  · rw [← hcast (P - 1) hem, ha1, ZMod.natCast_mod, Nat.cast_one]
  · intro q hq hdvd
    have hqmem : q ∈ qs := by
      rw [← hfac] at hdvd
      obtain ⟨x, hx, hdx⟩ := (hq.prime.dvd_prod_iff).mp hdvd
      have hxq := (Nat.prime_dvd_prime_iff_eq hq (hqs x hx)).mp hdx
      rwa [hxq]
    intro hcon
    apply had q hqmem
    have hlt : (P - 1) / q < 2 ^ 256 := lt_of_le_of_lt (Nat.div_le_self _ _) hem
    have hc := hcast ((P - 1) / q) hlt
    rw [hcon] at hc
    have h1 : ((powMod 256 a ((P - 1) / q) P : Nat) : ZMod P) = ((1 : Nat) : ZMod P) := by
      rw [hc]; simp
    rw [ZMod.natCast_eq_natCast_iff'] at h1
    have hplt : powMod 256 a ((P - 1) / q) P < P := powMod_lt 256 a _ P (by omega)
    calc powMod 256 a ((P - 1) / q) P
        = powMod 256 a ((P - 1) / q) P % P := (Nat.mod_eq_of_lt hplt).symm
      _ = 1 % P := h1

theorem prime_545358713 : Nat.Prime 545358713 := by
  apply lucas_cert 545358713 5 [2, 2, 2, 41, 59, 28181] (by norm_num) (by norm_num)
    (by norm_num)
  · intro q hq
    simp only [List.mem_cons, List.not_mem_nil, or_false] at hq
    rcases hq with rfl | rfl | rfl | rfl | rfl | rfl <;> norm_num
  · decide
  · intro q hq
    simp only [List.mem_cons, List.not_mem_nil, or_false] at hq
    rcases hq with rfl | rfl | rfl | rfl | rfl | rfl <;> decide

theorem prime_20113 : Nat.Prime 20113 := by norm_num

theorem prime_1206781 : Nat.Prime 1206781 := by
  apply lucas_cert 1206781 10 [2, 2, 3, 5, 20113] (by norm_num) (by norm_num) (by norm_num)
  · intro q hq
    simp only [List.mem_cons, List.not_mem_nil, or_false] at hq
    rcases hq with rfl | rfl | rfl | rfl | rfl
    · norm_num
    · norm_num
    · norm_num
    · norm_num
    · exact prime_20113
  · decide
  · intro q hq
    simp only [List.mem_cons, List.not_mem_nil, or_false] at hq
    rcases hq with rfl | rfl | rfl | rfl | rfl <;> decide

theorem prime_7240687 : Nat.Prime 7240687 := by
  apply lucas_cert 7240687 3 [2, 3, 1206781] (by norm_num) (by norm_num) (by norm_num)
  · intro q hq
    simp only [List.mem_cons, List.not_mem_nil, or_false] at hq
    rcases hq with rfl | rfl | rfl
    · norm_num
    · norm_num
    · exact prime_1206781
  · decide
  · intro q hq
    simp only [List.mem_cons, List.not_mem_nil, or_false] at hq
    rcases hq with rfl | rfl | rfl <;> decide

theorem prime_1627771 : Nat.Prime 1627771 := by
  apply lucas_cert 1627771 3 [2, 3, 5, 29, 1871] (by norm_num) (by norm_num) (by norm_num)
  · intro q hq
    simp only [List.mem_cons, List.not_mem_nil, or_false] at hq
    rcases hq with rfl | rfl | rfl | rfl | rfl <;> norm_num
  · decide
  · intro q hq
    simp only [List.mem_cons, List.not_mem_nil, or_false] at hq
    rcases hq with rfl | rfl | rfl | rfl | rfl <;> decide

theorem prime_4681609 : Nat.Prime 4681609 := by
  apply lucas_cert 4681609 23 [2, 2, 2, 3, 97, 2011] (by norm_num) (by norm_num) (by norm_num)
  · intro q hq
    simp only [List.mem_cons, List.not_mem_nil, or_false] at hq
    rcases hq with rfl | rfl | rfl | rfl | rfl | rfl <;> norm_num
  · decide
  · intro q hq
    simp only [List.mem_cons, List.not_mem_nil, or_false] at hq
    rcases hq with rfl | rfl | rfl | rfl | rfl | rfl <;> decide

theorem prime_44706919 : Nat.Prime 44706919 := by
  apply lucas_cert 44706919 6 [2, 3, 797, 9349] (by norm_num) (by norm_num) (by norm_num)
  · intro q hq
    simp only [List.mem_cons, List.not_mem_nil, or_false] at hq
    rcases hq with rfl | rfl | rfl | rfl <;> norm_num
  · decide
  · intro q hq
    simp only [List.mem_cons, List.not_mem_nil, or_false] at hq
    rcases hq with rfl | rfl | rfl | rfl <;> decide

theorem prime_13331831 : Nat.Prime 13331831 := by
  apply lucas_cert 13331831 13 [2, 5, 971, 1373] (by norm_num) (by norm_num) (by norm_num)
  · intro q hq
    simp only [List.mem_cons, List.not_mem_nil, or_false] at hq
    rcases hq with rfl | rfl | rfl | rfl <;> norm_num
  · decide
  · intro q hq
    simp only [List.mem_cons, List.not_mem_nil, or_false] at hq
    rcases hq with rfl | rfl | rfl | rfl <;> decide

theorem prime_297159362677 : Nat.Prime 297159362677 := by
  apply lucas_cert 297159362677 2 [2, 2, 3, 3, 11, 461, 1627771] (by norm_num) (by norm_num)
    (by norm_num)
  · intro q hq
    simp only [List.mem_cons, List.not_mem_nil, or_false] at hq
    rcases hq with rfl | rfl | rfl | rfl | rfl | rfl | rfl
    · norm_num
    · norm_num
    · norm_num
    · norm_num
    · norm_num
    · norm_num
    · exact prime_1627771
  · decide
  · intro q hq
    simp only [List.mem_cons, List.not_mem_nil, or_false] at hq
    rcases hq with rfl | rfl | rfl | rfl | rfl | rfl | rfl <;> decide

theorem prime_c29 : Nat.Prime 29047611873442575647497758179 := by
  apply lucas_cert 29047611873442575647497758179 2
    [2, 293, 305873, 545358713, 297159362677] (by norm_num) (by norm_num) (by norm_num)
  · intro q hq
    simp only [List.mem_cons, List.not_mem_nil, or_false] at hq
    rcases hq with rfl | rfl | rfl | rfl | rfl
    · norm_num
    · norm_num
    · norm_num
    · exact prime_545358713
    · exact prime_297159362677
  · decide
  · intro q hq
    simp only [List.mem_cons, List.not_mem_nil, or_false] at hq
    rcases hq with rfl | rfl | rfl | rfl | rfl <;> decide

theorem prime_P108 : Nat.Prime 341948486974166000522343609283189 := by
  apply lucas_cert 341948486974166000522343609283189 2
    [2, 2, 3, 3, 3, 109, 29047611873442575647497758179] (by norm_num) (by norm_num)
    (by norm_num)
  · intro q hq
    simp only [List.mem_cons, List.not_mem_nil, or_false] at hq
    rcases hq with rfl | rfl | rfl | rfl | rfl | rfl | rfl
    · norm_num
    · norm_num
    · norm_num
    · norm_num
    · norm_num
    · norm_num
    · exact prime_c29
  · decide
  · intro q hq
    simp only [List.mem_cons, List.not_mem_nil, or_false] at hq
    rcases hq with rfl | rfl | rfl | rfl | rfl | rfl | rfl <;> decide

theorem prime_P57 : Nat.Prime 107361793816595537 := by
  apply lucas_cert 107361793816595537 3 [2, 2, 2, 2, 16699, 85831, 4681609]
    (by norm_num) (by norm_num) (by norm_num)
  · intro q hq
    simp only [List.mem_cons, List.not_mem_nil, or_false] at hq
    rcases hq with rfl | rfl | rfl | rfl | rfl | rfl | rfl
    · norm_num
    · norm_num
    · norm_num
    · norm_num
    · norm_num
    · norm_num
    · exact prime_4681609
  · decide
  · intro q hq
    simp only [List.mem_cons, List.not_mem_nil, or_false] at hq
    rcases hq with rfl | rfl | rfl | rfl | rfl | rfl | rfl <;> decide

theorem prime_P68 : Nat.Prime 174723607534414371449 := by
  apply lucas_cert 174723607534414371449 3 [2, 2, 2, 17, 59, 4051, 120233, 44706919]
    (by norm_num) (by norm_num) (by norm_num)
  · intro q hq
    simp only [List.mem_cons, List.not_mem_nil, or_false] at hq
    rcases hq with rfl | rfl | rfl | rfl | rfl | rfl | rfl | rfl
    · norm_num
    · norm_num
    · norm_num
    · norm_num
    · norm_num
    · norm_num
    · norm_num
    · exact prime_44706919
  · decide
  · intro q hq
    simp only [List.mem_cons, List.not_mem_nil, or_false] at hq
    rcases hq with rfl | rfl | rfl | rfl | rfl | rfl | rfl | rfl <;> decide

/-- The secp256k1 group order is prime. -/
theorem nOrd_prime : Nat.Prime nOrd := by
  rw [show nOrd = 115792089237316195423570985008687907852837564279074904382605163141518161494337
    from by norm_num [nOrd]]
  apply lucas_cert 115792089237316195423570985008687907852837564279074904382605163141518161494337 7
    [2, 2, 2, 2, 2, 2, 3, 149, 631, 107361793816595537, 174723607534414371449,
      341948486974166000522343609283189]
    (by norm_num) (by norm_num) (by norm_num)
  · intro q hq
    simp only [List.mem_cons, List.not_mem_nil, or_false] at hq
    rcases hq with rfl | rfl | rfl | rfl | rfl | rfl | rfl | rfl | rfl | rfl | rfl | rfl
    · norm_num
    · norm_num
    · norm_num
    · norm_num
    · norm_num
    · norm_num
    · norm_num
    · norm_num
    · norm_num
    · exact prime_P57
    · exact prime_P68
    · exact prime_P108
  · decide
  · intro q hq
    simp only [List.mem_cons, List.not_mem_nil, or_false] at hq
    rcases hq with rfl | rfl | rfl | rfl | rfl | rfl | rfl | rfl | rfl | rfl | rfl | rfl <;>
      decide

instance : Fact (Nat.Prime nOrd) := ⟨nOrd_prime⟩

theorem prime_173378833005251801 : Nat.Prime 173378833005251801 := by
  apply lucas_cert 173378833005251801 6 [2, 2, 2, 5, 5, 2621, 24809, 13331831]
    (by norm_num) (by norm_num) (by norm_num)
  · intro q hq
    simp only [List.mem_cons, List.not_mem_nil, or_false] at hq
    rcases hq with rfl | rfl | rfl | rfl | rfl | rfl | rfl | rfl
    · norm_num
    · norm_num
    · norm_num
    · norm_num
    · norm_num
    · norm_num
    · norm_num
    · exact prime_13331831
  · decide
  · intro q hq
    simp only [List.mem_cons, List.not_mem_nil, or_false] at hq
    rcases hq with rfl | rfl | rfl | rfl | rfl | rfl | rfl | rfl <;> decide

theorem prime_q73 : Nat.Prime 22149492674086928081353 := by
  apply lucas_cert 22149492674086928081353 5 [2, 2, 2, 3, 5323, 173378833005251801]
    (by norm_num) (by norm_num) (by norm_num)
  · intro q hq
    simp only [List.mem_cons, List.not_mem_nil, or_false] at hq
    rcases hq with rfl | rfl | rfl | rfl | rfl | rfl
    · norm_num
    · norm_num
    · norm_num
    · norm_num
    · norm_num
    · exact prime_173378833005251801
  · decide
  · intro q hq
    simp only [List.mem_cons, List.not_mem_nil, or_false] at hq
    rcases hq with rfl | rfl | rfl | rfl | rfl | rfl <;> decide

theorem prime_q78 : Nat.Prime 132896956044521568488119 := by
  apply lucas_cert 132896956044521568488119 6 [2, 3, 22149492674086928081353]
    (by norm_num) (by norm_num) (by norm_num)
  · intro q hq
    simp only [List.mem_cons, List.not_mem_nil, or_false] at hq
    rcases hq with rfl | rfl | rfl
    · norm_num
    · norm_num
    · exact prime_q73
  · decide
  · intro q hq
    simp only [List.mem_cons, List.not_mem_nil, or_false] at hq
    rcases hq with rfl | rfl | rfl <;> decide

theorem prime_107590001 : Nat.Prime 107590001 := by
  apply lucas_cert 107590001 3 [2, 2, 2, 2, 5, 5, 5, 5, 7, 29, 53]
    (by norm_num) (by norm_num) (by norm_num)
  · intro q hq
    simp only [List.mem_cons, List.not_mem_nil, or_false] at hq
    rcases hq with rfl | rfl | rfl | rfl | rfl | rfl | rfl | rfl | rfl | rfl | rfl <;> norm_num
  · decide
  · intro q hq
    simp only [List.mem_cons, List.not_mem_nil, or_false] at hq
    rcases hq with rfl | rfl | rfl | rfl | rfl | rfl | rfl | rfl | rfl | rfl | rfl <;> decide

theorem prime_q128 : Nat.Prime 255515944373312847190720520512484175977 := by
  apply lucas_cert 255515944373312847190720520512484175977 3
    [2, 2, 2, 7, 7, 11, 1627, 2657, 4423, 41201, 96557, 7240687, 107590001]
    (by norm_num) (by norm_num) (by norm_num)
  · intro q hq
    simp only [List.mem_cons, List.not_mem_nil, or_false] at hq
    rcases hq with rfl | rfl | rfl | rfl | rfl | rfl | rfl | rfl | rfl | rfl | rfl | rfl | rfl
    · norm_num
    · norm_num
    · norm_num
    · norm_num
    · norm_num
    · norm_num
    · norm_num
    · norm_num
    · norm_num
    · norm_num
    · norm_num
    · exact prime_7240687
    · exact prime_107590001
  · decide
  · intro q hq
    simp only [List.mem_cons, List.not_mem_nil, or_false] at hq
    rcases hq with rfl | rfl | rfl | rfl | rfl | rfl | rfl | rfl | rfl | rfl | rfl | rfl | rfl <;>
      decide

theorem prime_P237 :
    Nat.Prime 205115282021455665897114700593932402728804164701536103180137503955397371 := by
  apply lucas_cert 205115282021455665897114700593932402728804164701536103180137503955397371 10
    [2, 3, 5, 29, 29, 31, 7723, 132896956044521568488119,
      255515944373312847190720520512484175977]
    (by norm_num) (by norm_num) (by norm_num)
  · intro q hq
    simp only [List.mem_cons, List.not_mem_nil, or_false] at hq
    rcases hq with rfl | rfl | rfl | rfl | rfl | rfl | rfl | rfl | rfl
    · norm_num
    · norm_num
    · norm_num
    · norm_num
    · norm_num
    · norm_num
    · norm_num
    · exact prime_q78
    · exact prime_q128
  · decide
  · intro q hq
    simp only [List.mem_cons, List.not_mem_nil, or_false] at hq
    rcases hq with rfl | rfl | rfl | rfl | rfl | rfl | rfl | rfl | rfl <;> decide

/-- The secp256k1 field prime is prime. -/
theorem pF_prime : Nat.Prime pF := by
  rw [show pF = 115792089237316195423570985008687907853269984665640564039457584007908834671663
    from by norm_num [pF]]
  apply lucas_cert 115792089237316195423570985008687907853269984665640564039457584007908834671663 3
    [2, 3, 7, 13441, 205115282021455665897114700593932402728804164701536103180137503955397371]
    (by norm_num) (by norm_num) (by norm_num)
  · intro q hq
    simp only [List.mem_cons, List.not_mem_nil, or_false] at hq
    rcases hq with rfl | rfl | rfl | rfl | rfl
    · norm_num
    · norm_num
    · norm_num
    · norm_num
    · exact prime_P237
  · decide
  · intro q hq
    simp only [List.mem_cons, List.not_mem_nil, or_false] at hq
    rcases hq with rfl | rfl | rfl | rfl | rfl <;> decide

instance : Fact (Nat.Prime pF) := ⟨pF_prime⟩

/-! ### Correspondence of the modelled point arithmetic with the secp256k1 group

The substrate's point operations are related to Mathlib's group of nonsingular
rational points on the Weierstrass curve `y² = x³ + 7` over `ZMod pF`. -/

/-- The secp256k1 curve over its base field. -/
def secpW : WeierstrassCurve.Affine (ZMod pF) := ⟨0, 0, 0, 0, 7⟩

/-- Canonical on-curve invariant for modelled points: coordinates are reduced
residues satisfying the curve equation. -/
def onCurve : Pt → Prop
  | .inf => True
  | .aff x y => x < pF ∧ y < pF ∧ (y * y) % pF = (x * x * x + 7) % pF

instance : ∀ P : Pt, Decidable (onCurve P)
  | .inf => isTrue trivial
  | .aff x y => inferInstanceAs (Decidable (_ ∧ _ ∧ _))

theorem pF_pos : 0 < pF := by norm_num [pF]

theorem natCast_pF_sub {x : Nat} (hx : x ≤ pF) :
    ((pF - x : Nat) : ZMod pF) = -(x : ZMod pF) := by
  rw [Nat.cast_sub hx, ZMod.natCast_self]
  ring

theorem natEq_of_castEq {a b : Nat} (ha : a < pF) (hb : b < pF)
    (h : (a : ZMod pF) = (b : ZMod pF)) : a = b := by
  have := congrArg ZMod.val h
  rwa [ZMod.val_cast_of_lt ha, ZMod.val_cast_of_lt hb] at this

theorem castNe_of_natNe {a b : Nat} (ha : a < pF) (hb : b < pF) (h : a ≠ b) :
    (a : ZMod pF) ≠ (b : ZMod pF) := fun hc => h (natEq_of_castEq ha hb hc)

theorem zmod_pF_nat_ne_zero {a : Nat} (ha : a < pF) (h : a ≠ 0) : (a : ZMod pF) ≠ 0 := by
  intro hc
  exact h (natEq_of_castEq ha pF_pos (by simpa using hc))

theorem equation_of_onCurve {x y : Nat} (h : onCurve (.aff x y)) :
    secpW.Equation (x : ZMod pF) (y : ZMod pF) := by
  obtain ⟨hx, hy, he⟩ := h
  rw [WeierstrassCurve.Affine.equation_iff]
  have hc := congrArg (fun t : Nat => (t : ZMod pF)) he
  simp only [ZMod.natCast_mod] at hc
  push_cast at hc
  show (y : ZMod pF) ^ 2 + secpW.a₁ * _ * _ + secpW.a₃ * _ = _
  simp only [secpW]
  linear_combination hc

theorem onCurve_of_equation {x y : Nat} (hx : x < pF) (hy : y < pF)
    (h : secpW.Equation (x : ZMod pF) (y : ZMod pF)) : onCurve (.aff x y) := by
  refine ⟨hx, hy, ?_⟩
  rw [WeierstrassCurve.Affine.equation_iff] at h
  simp only [secpW] at h
  rw [← ZMod.natCast_eq_natCast_iff']
  push_cast
  linear_combination h

theorem seven_ne_zero_pF : (7 : ZMod pF) ≠ 0 := by
  have : ((7 : Nat) : ZMod pF) ≠ 0 := zmod_pF_nat_ne_zero (by norm_num [pF]) (by norm_num)
  simpa using this

theorem two_ne_zero_pF : (2 : ZMod pF) ≠ 0 := by
  have : ((2 : Nat) : ZMod pF) ≠ 0 := zmod_pF_nat_ne_zero (by norm_num [pF]) (by norm_num)
  simpa using this

theorem three_ne_zero_pF : (3 : ZMod pF) ≠ 0 := by
  have : ((3 : Nat) : ZMod pF) ≠ 0 := zmod_pF_nat_ne_zero (by norm_num [pF]) (by norm_num)
  simpa using this

theorem nonsingular_of_onCurve {x y : Nat} (h : onCurve (.aff x y)) :
    secpW.Nonsingular (x : ZMod pF) (y : ZMod pF) := by
  rw [WeierstrassCurve.Affine.nonsingular_iff]
  refine ⟨equation_of_onCurve h, ?_⟩
  by_cases hy0 : (y : ZMod pF) = 0
  · left
    simp only [secpW]
    intro h3
    have heq := equation_of_onCurve h
    rw [WeierstrassCurve.Affine.equation_iff] at heq
    simp only [secpW] at heq
    have hx0 : (x : ZMod pF) = 0 := by
      have h30 : (3 : ZMod pF) * (x : ZMod pF) ^ 2 = 0 := by linear_combination -h3
      rcases mul_eq_zero.mp h30 with h | h
      · exact absurd h three_ne_zero_pF
      · exact pow_eq_zero_iff (by norm_num) |>.mp h
    rw [hx0, hy0] at heq
    apply seven_ne_zero_pF
    linear_combination -heq
  · right
    simp only [secpW]
    intro hcon
    apply hy0
    have h2y : (2 : ZMod pF) * (y : ZMod pF) = 0 := by linear_combination hcon
    rcases mul_eq_zero.mp h2y with h | h
    · exact absurd h two_ne_zero_pF
    · exact h

/-- The modelled point as a nonsingular rational point on the curve
(off-curve coordinate pairs are mapped to the zero point). -/
def toPoint : Pt → secpW.Point
  | .inf => 0
  | .aff x y =>
    if h : onCurve (.aff x y) then WeierstrassCurve.Affine.Point.some (nonsingular_of_onCurve h)
    else 0

theorem toPoint_inf : toPoint .inf = 0 := rfl

theorem toPoint_aff {x y : Nat} (h : onCurve (.aff x y)) :
    toPoint (.aff x y) = WeierstrassCurve.Affine.Point.some (nonsingular_of_onCurve h) :=
  dif_pos h

theorem point_some_congr {x1 y1 x2 y2 : ZMod pF} (hx : x1 = x2) (hy : y1 = y2)
    {h1 : secpW.Nonsingular x1 y1} {h2 : secpW.Nonsingular x2 y2} :
    WeierstrassCurve.Affine.Point.some h1 = WeierstrassCurve.Affine.Point.some h2 := by
  subst hx
  subst hy
  rfl

/-- The affine coordinates of a nonsingular rational point. -/
def ptCoords : secpW.Point → Option (ZMod pF × ZMod pF)
  | WeierstrassCurve.Affine.Point.zero => none
  | WeierstrassCurve.Affine.Point.some (x := x) (y := y) _ => some (x, y)

theorem toPoint_inj : ∀ (P Q : Pt), onCurve P → onCurve Q →
    toPoint P = toPoint Q → P = Q
  | .inf, .inf, _, _, _ => rfl
  | .inf, .aff x y, _, hQ, h => by
    rw [toPoint_inf, toPoint_aff hQ] at h
    exact absurd h.symm (WeierstrassCurve.Affine.Point.some_ne_zero _)
  | .aff x y, .inf, hP, _, h => by
    rw [toPoint_inf, toPoint_aff hP] at h
    exact absurd h (WeierstrassCurve.Affine.Point.some_ne_zero _)
  | .aff x1 y1, .aff x2 y2, hP, hQ, h => by
    rw [toPoint_aff hP, toPoint_aff hQ] at h
    have hc := congrArg ptCoords h
    simp only [ptCoords, Option.some.injEq, Prod.mk.injEq] at hc
    obtain ⟨hx, hy⟩ := hc
    rw [natEq_of_castEq hP.1 hQ.1 hx, natEq_of_castEq hP.2.1 hQ.2.1 hy]

theorem toPoint_eq_zero_iff (P : Pt) (hP : onCurve P) : toPoint P = 0 ↔ P = .inf := by
  cases P with
  | inf => simp [toPoint_inf]
  | aff x y =>
    rw [toPoint_aff hP]
    constructor
    · intro hc
      exact absurd hc (WeierstrassCurve.Affine.Point.some_ne_zero _)
    · intro hc
      cases hc

theorem invP_cast {b : Nat} (hb : (b : ZMod pF) ≠ 0) :
    ((invP b : Nat) : ZMod pF) = (b : ZMod pF)⁻¹ := by
  unfold invP
  rw [powMod_cast 256 (b % pF) (pF - 2) pF (by norm_num [pF]) pF_pos, ZMod.natCast_mod]
  have h1 : (b : ZMod pF) ^ (pF - 1) = 1 := ZMod.pow_card_sub_one_eq_one hb
  have h2 : (b : ZMod pF) ^ (pF - 2) * (b : ZMod pF) = 1 := by
    rw [← pow_succ, show pF - 2 + 1 = pF - 1 from by norm_num [pF], h1]
  exact eq_inv_of_mul_eq_one_left h2

theorem nOrd_pos : 0 < nOrd := by norm_num [nOrd]

theorem negY_eq (x y : ZMod pF) : secpW.negY x y = -y := by
  simp [secpW, WeierstrassCurve.Affine.negY]

theorem y_ne_negY {x y : Nat} (hy : (y : ZMod pF) ≠ 0) :
    (y : ZMod pF) ≠ secpW.negY (x : ZMod pF) (y : ZMod pF) := by
  rw [negY_eq]
  intro hc
  apply hy
  have h2 : (2 : ZMod pF) * (y : ZMod pF) = 0 := by linear_combination hc
  rcases mul_eq_zero.mp h2 with h | h
  · exact absurd h two_ne_zero_pF
  · exact h

theorem addXD_lt (l x1 x2 : Nat) : addXD l x1 x2 < pF := Nat.mod_lt _ pF_pos

theorem addYD_lt (l x1 x3 y1 : Nat) : addYD l x1 x3 y1 < pF := Nat.mod_lt _ pF_pos

theorem addXD_cast {x1 x2 : Nat} (l : Nat) (hx1 : x1 ≤ pF) (hx2 : x2 ≤ pF) :
    ((addXD l x1 x2 : Nat) : ZMod pF) =
      (l : ZMod pF) * (l : ZMod pF) - (x1 : ZMod pF) - (x2 : ZMod pF) := by
  unfold addXD
  rw [ZMod.natCast_mod, Nat.cast_add, Nat.cast_add, Nat.cast_mul,
    natCast_pF_sub hx1, natCast_pF_sub hx2]
  ring

theorem addYD_cast {x3 y1 : Nat} (l x1 : Nat) (hx3 : x3 ≤ pF) (hy1 : y1 ≤ pF) :
    ((addYD l x1 x3 y1 : Nat) : ZMod pF) =
      (l : ZMod pF) * ((x1 : ZMod pF) - (x3 : ZMod pF)) - (y1 : ZMod pF) := by
  unfold addYD
  rw [ZMod.natCast_mod, Nat.cast_add, ZMod.natCast_mod, Nat.cast_mul, ZMod.natCast_mod,
    Nat.cast_add, natCast_pF_sub hx3, natCast_pF_sub hy1]
  ring

theorem slopeD_eq_slope {x y : Nat} (hy : (y : ZMod pF) ≠ 0) :
    ((slopeD x y : Nat) : ZMod pF) =
      secpW.slope (x : ZMod pF) (x : ZMod pF) (y : ZMod pF) (y : ZMod pF) := by
  have h2y : (((2 * y % pF : Nat)) : ZMod pF) ≠ 0 := by
    rw [ZMod.natCast_mod]
    push_cast
    exact mul_ne_zero two_ne_zero_pF hy
  unfold slopeD
  rw [ZMod.natCast_mod, Nat.cast_mul, invP_cast h2y, ZMod.natCast_mod, ZMod.natCast_mod]
  rw [WeierstrassCurve.Affine.slope_of_Y_ne rfl (y_ne_negY hy), negY_eq]
  simp only [secpW]
  rw [div_eq_mul_inv]
  push_cast
  ring_nf

theorem slopeA_eq_slope {x1 y1 x2 y2 : Nat} (hx1 : x1 < pF) (hy1 : y1 < pF)
    (hx2 : x2 < pF) (hy2 : y2 < pF) (hxZ : (x1 : ZMod pF) ≠ (x2 : ZMod pF)) :
    ((slopeA x1 y1 x2 y2 : Nat) : ZMod pF) =
      secpW.slope (x1 : ZMod pF) (x2 : ZMod pF) (y1 : ZMod pF) (y2 : ZMod pF) := by
  have hden : (((x1 + (pF - x2)) % pF : Nat) : ZMod pF) = (x1 : ZMod pF) - (x2 : ZMod pF) := by
    rw [ZMod.natCast_mod, Nat.cast_add, natCast_pF_sub (le_of_lt hx2)]
    ring
  have hdenne : (((x1 + (pF - x2)) % pF : Nat) : ZMod pF) ≠ 0 := by
    rw [hden]
    exact sub_ne_zero.mpr hxZ
  unfold slopeA
  rw [ZMod.natCast_mod, Nat.cast_mul, invP_cast hdenne, hden, ZMod.natCast_mod,
    Nat.cast_add, natCast_pF_sub (le_of_lt hy2)]
  rw [WeierstrassCurve.Affine.slope_of_X_ne hxZ, div_eq_mul_inv]
  ring

theorem ptDbl_sound (P : Pt) (h : onCurve P) :
    onCurve (ptDbl P) ∧ toPoint (ptDbl P) = toPoint P + toPoint P := by
  cases P with
  | inf =>
    refine ⟨trivial, ?_⟩
    rw [show ptDbl .inf = .inf from rfl, toPoint_inf]
    exact (add_zero 0).symm
  | aff x y =>
    by_cases hy : y = 0
    · subst hy
      have e : ptDbl (.aff x 0) = .inf := by rw [ptDbl, if_pos rfl]
      refine ⟨by rw [e]; trivial, ?_⟩
      rw [e, toPoint_inf, toPoint_aff h]
      symm
      apply WeierstrassCurve.Affine.Point.add_self_of_Y_eq
      rw [negY_eq]
      show ((0 : Nat) : ZMod pF) = -((0 : Nat) : ZMod pF)
      simp
    · have hyZ : (y : ZMod pF) ≠ 0 := zmod_pF_nat_ne_zero h.2.1 hy
      have hyne := y_ne_negY (x := x) hyZ
      have e : ptDbl (.aff x y) = .aff (addXD (slopeD x y) x x)
          (addYD (slopeD x y) x (addXD (slopeD x y) x x) y) := by
        rw [ptDbl, if_neg hy]
      have hL := slopeD_eq_slope (x := x) hyZ
      have hx3 : ((addXD (slopeD x y) x x : Nat) : ZMod pF) =
          secpW.addX (x : ZMod pF) (x : ZMod pF)
            (secpW.slope (x : ZMod pF) (x : ZMod pF) (y : ZMod pF) (y : ZMod pF)) := by
        rw [addXD_cast _ (le_of_lt h.1) (le_of_lt h.1), hL]
        simp only [WeierstrassCurve.Affine.addX, secpW]
        ring
      have hy3 : ((addYD (slopeD x y) x (addXD (slopeD x y) x x) y : Nat) : ZMod pF) =
          secpW.addY (x : ZMod pF) (x : ZMod pF) (y : ZMod pF)
            (secpW.slope (x : ZMod pF) (x : ZMod pF) (y : ZMod pF) (y : ZMod pF)) := by
        rw [addYD_cast _ _ (le_of_lt (addXD_lt _ _ _)) (le_of_lt h.2.1), hL, hx3]
        simp only [WeierstrassCurve.Affine.addY, WeierstrassCurve.Affine.negAddY,
          WeierstrassCurve.Affine.negY, WeierstrassCurve.Affine.addX, secpW]
        ring
      have hns := WeierstrassCurve.Affine.nonsingular_add (nonsingular_of_onCurve h)
        (nonsingular_of_onCurve h) (fun _ => hyne)
      have hns2 : secpW.Nonsingular ((addXD (slopeD x y) x x : Nat) : ZMod pF)
          ((addYD (slopeD x y) x (addXD (slopeD x y) x x) y : Nat) : ZMod pF) := by
        rw [hx3, hy3]
        exact hns
      have honC : onCurve (.aff (addXD (slopeD x y) x x)
          (addYD (slopeD x y) x (addXD (slopeD x y) x x) y)) :=
        onCurve_of_equation (addXD_lt _ _ _) (addYD_lt _ _ _ _) hns2.1
      refine ⟨by rw [e]; exact honC, ?_⟩
      rw [e, toPoint_aff honC, toPoint_aff h,
        WeierstrassCurve.Affine.Point.add_self_of_Y_ne hyne]
      exact point_some_congr hx3 hy3

theorem ptAdd_sound (P Q : Pt) (hP : onCurve P) (hQ : onCurve Q) :
    onCurve (ptAdd P Q) ∧ toPoint (ptAdd P Q) = toPoint P + toPoint Q := by
  cases P with
  | inf =>
    have e0 : ptAdd .inf Q = Q := by cases Q <;> rfl
    rw [e0, toPoint_inf, zero_add]
    exact ⟨hQ, rfl⟩
  | aff x1 y1 =>
    cases Q with
    | inf =>
      rw [show ptAdd (.aff x1 y1) .inf = .aff x1 y1 from rfl, toPoint_inf, add_zero]
      exact ⟨hP, rfl⟩
    | aff x2 y2 =>
      by_cases hx12 : x1 = x2
      · subst hx12
        by_cases hys : (y1 + y2) % pF = 0
        · have e : ptAdd (.aff x1 y1) (.aff x1 y2) = .inf := by
            rw [ptAdd, if_pos rfl, if_pos hys]
          refine ⟨by rw [e]; trivial, ?_⟩
          rw [e, toPoint_inf, toPoint_aff hP, toPoint_aff hQ]
          symm
          apply WeierstrassCurve.Affine.Point.add_of_Y_eq rfl
          rw [negY_eq]
          have hc : ((y1 + y2 : Nat) : ZMod pF) = 0 := by
            rw [← ZMod.natCast_mod (y1 + y2) pF, hys, Nat.cast_zero]
          push_cast at hc
          linear_combination hc
        · have hysZ : (y1 : ZMod pF) + (y2 : ZMod pF) ≠ 0 := by
            intro hc
            apply hys
            have hcc : ((y1 + y2 : Nat) : ZMod pF) = ((0 : Nat) : ZMod pF) := by
              push_cast
              simpa using hc
            have := (ZMod.natCast_eq_natCast_iff' _ _ _).mp hcc
            simpa using this
          have hyne : (y1 : ZMod pF) ≠ secpW.negY (x1 : ZMod pF) (y2 : ZMod pF) := by
            rw [negY_eq]
            intro hc
            apply hysZ
            linear_combination hc
          have hyy : (y1 : ZMod pF) = (y2 : ZMod pF) :=
            WeierstrassCurve.Affine.Y_eq_of_Y_ne (equation_of_onCurve hP)
              (equation_of_onCurve hQ) rfl hyne
          have hy12 : y1 = y2 := natEq_of_castEq hP.2.1 hQ.2.1 hyy
          subst hy12
          have e : ptAdd (.aff x1 y1) (.aff x1 y1) = ptDbl (.aff x1 y1) := by
            rw [ptAdd, if_pos rfl, if_neg hys]
          rw [e]
          exact ptDbl_sound (.aff x1 y1) hP
      · have hxZ : (x1 : ZMod pF) ≠ (x2 : ZMod pF) := castNe_of_natNe hP.1 hQ.1 hx12
        have e : ptAdd (.aff x1 y1) (.aff x2 y2) = .aff (addXD (slopeA x1 y1 x2 y2) x1 x2)
            (addYD (slopeA x1 y1 x2 y2) x1 (addXD (slopeA x1 y1 x2 y2) x1 x2) y1) := by
          rw [ptAdd, if_neg hx12]
        have hL := slopeA_eq_slope hP.1 hP.2.1 hQ.1 hQ.2.1 hxZ
        have hx3 : ((addXD (slopeA x1 y1 x2 y2) x1 x2 : Nat) : ZMod pF) =
            secpW.addX (x1 : ZMod pF) (x2 : ZMod pF)
              (secpW.slope (x1 : ZMod pF) (x2 : ZMod pF) (y1 : ZMod pF) (y2 : ZMod pF)) := by
          rw [addXD_cast _ (le_of_lt hP.1) (le_of_lt hQ.1), hL]
          simp only [WeierstrassCurve.Affine.addX, secpW]
          ring
        have hy3 : ((addYD (slopeA x1 y1 x2 y2) x1 (addXD (slopeA x1 y1 x2 y2) x1 x2) y1 :
              Nat) : ZMod pF) =
            secpW.addY (x1 : ZMod pF) (x2 : ZMod pF) (y1 : ZMod pF)
              (secpW.slope (x1 : ZMod pF) (x2 : ZMod pF) (y1 : ZMod pF) (y2 : ZMod pF)) := by
          rw [addYD_cast _ _ (le_of_lt (addXD_lt _ _ _)) (le_of_lt hP.2.1), hL, hx3]
          simp only [WeierstrassCurve.Affine.addY, WeierstrassCurve.Affine.negAddY,
            WeierstrassCurve.Affine.negY, WeierstrassCurve.Affine.addX, secpW]
          ring
        have hns := WeierstrassCurve.Affine.nonsingular_add (nonsingular_of_onCurve hP)
          (nonsingular_of_onCurve hQ) (fun hc => absurd hc hxZ)
        have hns2 : secpW.Nonsingular ((addXD (slopeA x1 y1 x2 y2) x1 x2 : Nat) : ZMod pF)
            ((addYD (slopeA x1 y1 x2 y2) x1 (addXD (slopeA x1 y1 x2 y2) x1 x2) y1 : Nat) :
              ZMod pF) := by
          rw [hx3, hy3]
          exact hns
        have honC : onCurve (.aff (addXD (slopeA x1 y1 x2 y2) x1 x2)
            (addYD (slopeA x1 y1 x2 y2) x1 (addXD (slopeA x1 y1 x2 y2) x1 x2) y1)) :=
          onCurve_of_equation (addXD_lt _ _ _) (addYD_lt _ _ _ _) hns2.1
        refine ⟨by rw [e]; exact honC, ?_⟩
        rw [e, toPoint_aff honC, toPoint_aff hP, toPoint_aff hQ,
          WeierstrassCurve.Affine.Point.add_of_X_ne hxZ]
        exact point_some_congr hx3 hy3

theorem invN_cast {b : Nat} (hb : (b : ZMod nOrd) ≠ 0) :
    ((invN b : Nat) : ZMod nOrd) = (b : ZMod nOrd)⁻¹ := by
  unfold invN
  rw [powMod_cast 256 (b % nOrd) (nOrd - 2) nOrd (by norm_num [nOrd]) nOrd_pos,
    ZMod.natCast_mod]
  have h1 : (b : ZMod nOrd) ^ (nOrd - 1) = 1 := ZMod.pow_card_sub_one_eq_one hb
  have h2 : (b : ZMod nOrd) ^ (nOrd - 2) * (b : ZMod nOrd) = 1 := by
    rw [← pow_succ, show nOrd - 2 + 1 = nOrd - 1 from by norm_num [nOrd], h1]
  exact eq_inv_of_mul_eq_one_left h2

theorem ptMul_sound : ∀ (fuel k : Nat) (P : Pt), onCurve P → k < 2 ^ fuel →
    onCurve (ptMul fuel k P) ∧ toPoint (ptMul fuel k P) = k • toPoint P
  | 0, k, P, hP, hk => by
    have hk0 : k = 0 := by omega
    subst hk0
    exact ⟨trivial, by rw [show ptMul 0 0 P = .inf from rfl, toPoint_inf, zero_nsmul]⟩
  | fuel + 1, k, P, hP, hk => by
    by_cases h0 : k = 0
    · subst h0
      rw [ptMul, if_pos rfl]
      exact ⟨trivial, by rw [toPoint_inf, zero_nsmul]⟩
    · rw [ptMul, if_neg h0]
      have hdbl := ptDbl_sound P hP
      have hk2 : k / 2 < 2 ^ fuel := by
        have h2 : (2 : Nat) ^ (fuel + 1) = 2 * 2 ^ fuel := by ring
        omega
      have hih := ptMul_sound fuel (k / 2) (ptDbl P) hdbl.1 hk2
      by_cases hodd : k % 2 = 1
      · rw [if_pos hodd]
        have hadd := ptAdd_sound (ptMul fuel (k / 2) (ptDbl P)) P hih.1 hP
        refine ⟨hadd.1, ?_⟩
        rw [hadd.2, hih.2, hdbl.2, ← two_nsmul, smul_smul, ← succ_nsmul]
        congr 1
        omega
      · rw [if_neg hodd]
        refine ⟨hih.1, ?_⟩
        rw [hih.2, hdbl.2, ← two_nsmul, smul_smul]
        congr 1
        omega

theorem ptG_onCurve : onCurve ptG := by decide

theorem nOrd_lt_2_pow : nOrd < 2 ^ 256 := by norm_num [nOrd]

theorem ecmultGen_sound (k : Nat) (hk : k < 2 ^ 256) :
    onCurve (ecmultGen k) ∧ toPoint (ecmultGen k) = k • toPoint ptG :=
  ptMul_sound 256 k ptG ptG_onCurve hk

theorem nG_eq_zero : (nOrd : Nat) • toPoint ptG = 0 := by
  have h := ptMul_sound 256 nOrd ptG ptG_onCurve nOrd_lt_2_pow
  have e : ptMul 256 nOrd ptG = .inf := by decide
  rw [e, toPoint_inf] at h
  exact h.2.symm

theorem PG_ne_zero : toPoint ptG ≠ 0 := fun hc =>
  absurd ((toPoint_eq_zero_iff ptG ptG_onCurve).mp hc) (by decide)

theorem addOrderOf_PG : addOrderOf (toPoint ptG) = nOrd := by
  have hdvd : addOrderOf (toPoint ptG) ∣ nOrd := addOrderOf_dvd_of_nsmul_eq_zero nG_eq_zero
  rcases (Nat.Prime.eq_one_or_self_of_dvd nOrd_prime _ hdvd) with h1 | hn
  · exact absurd (AddMonoid.addOrderOf_eq_one_iff.mp h1) PG_ne_zero
  · exact hn

theorem nsmul_PG_eq_zero_iff (a : Nat) : a • toPoint ptG = 0 ↔ nOrd ∣ a := by
  rw [← addOrderOf_dvd_iff_nsmul_eq_zero, addOrderOf_PG]

theorem nsmul_PG_mod (a : Nat) : (a % nOrd) • toPoint ptG = a • toPoint ptG := by
  have h := mod_addOrderOf_nsmul (toPoint ptG) a
  rwa [addOrderOf_PG] at h

theorem ecmult_sound (a : Pt) (u2 u1 : Nat) (ha : onCurve a)
    (h2 : u2 < 2 ^ 256) (h1 : u1 < 2 ^ 256) :
    onCurve (ecmult a u2 u1) ∧
      toPoint (ecmult a u2 u1) = u2 • toPoint a + u1 • toPoint ptG := by
  have hm2 := ptMul_sound 256 u2 a ha h2
  have hm1 := ptMul_sound 256 u1 ptG ptG_onCurve h1
  have hadd := ptAdd_sound _ _ hm2.1 hm1.1
  refine ⟨hadd.1, ?_⟩
  unfold ecmult
  rw [hadd.2, hm2.2, hm1.2]

/-! ### Scalar-side cast utilities mod the group order -/

theorem natCast_nOrd_sub {x : Nat} (hx : x ≤ nOrd) :
    ((nOrd - x : Nat) : ZMod nOrd) = -(x : ZMod nOrd) := by
  rw [Nat.cast_sub hx, ZMod.natCast_self]
  ring

theorem natEqN_of_castEq {a b : Nat} (ha : a < nOrd) (hb : b < nOrd)
    (h : (a : ZMod nOrd) = (b : ZMod nOrd)) : a = b := by
  have := congrArg ZMod.val h
  rwa [ZMod.val_cast_of_lt ha, ZMod.val_cast_of_lt hb] at this

theorem zmod_nOrd_nat_ne_zero {a : Nat} (ha : a < nOrd) (h : a ≠ 0) :
    (a : ZMod nOrd) ≠ 0 := by
  intro hc
  exact h (natEqN_of_castEq ha nOrd_pos (by simpa using hc))

/-! ### Sign/verify consistency -/

theorem sigSign_r (a b c : Nat) : (sigSign a b c).r = ptX (ecmultGen c) % nOrd := by
  unfold sigSign
  split <;> rfl

theorem sigSign_s_eq (a b c : Nat) :
    (sigSign a b c).s = if nOrd / 2 < signS0 a b c then (nOrd - signS0 a b c) % nOrd
      else signS0 a b c := by
  unfold sigSign
  by_cases h : nOrd / 2 < signS0 a b c
  · rw [if_pos h, if_pos h]
  · rw [if_neg h, if_neg h]

theorem sigSign_ok_iff (a b c : Nat) :
    (sigSign a b c).ok = true ↔ (sigSign a b c).r ≠ 0 ∧ (sigSign a b c).s ≠ 0 := by
  unfold sigSign
  by_cases h : nOrd / 2 < signS0 a b c
  · rw [if_pos h]
    simp [decide_eq_true_eq]
  · rw [if_neg h]
    simp [decide_eq_true_eq]

theorem signS0_lt (a b c : Nat) : signS0 a b c < nOrd := by
  unfold signS0
  exact Nat.mod_lt _ nOrd_pos

theorem sigSign_s_lt (a b c : Nat) : (sigSign a b c).s < nOrd := by
  rw [sigSign_s_eq]
  split
  · exact Nat.mod_lt _ nOrd_pos
  · exact signS0_lt a b c

theorem signS0_cast (a b c : Nat) :
    ((signS0 a b c : Nat) : ZMod nOrd) =
      ((invN c : Nat) : ZMod nOrd) *
        (((ptX (ecmultGen c) % nOrd : Nat) : ZMod nOrd) * (a : ZMod nOrd) + (b : ZMod nOrd)) := by
  unfold signS0
  rw [ZMod.natCast_mod, Nat.cast_mul, ZMod.natCast_mod, Nat.cast_add, ZMod.natCast_mod,
    Nat.cast_mul]

theorem pF_lt_two_nOrd : pF < 2 * nOrd := by norm_num [pF, nOrd]

theorem pMinusOrd_add : pMinusOrd + nOrd = pF := by norm_num [pMinusOrd, nOrd, pF]

/-- If the recomputed point is affine with x-coordinate `xR` and `r = xR mod n`,
the two-candidate test accepts. -/
theorem verify_final (r s : Nat) (pub : Pt) (msg xR yP : Nat)
    (hr_ne : r ≠ 0) (hs_ne : s ≠ 0)
    (hpr : ecmult pub (invN s * r % nOrd) (invN s * msg % nOrd) = .aff xR yP)
    (hxlt : xR < pF)
    (hr_eq : r = xR % nOrd) :
    sigVerify r s pub msg = true := by
  unfold sigVerify
  rw [if_neg (by tauto), hpr]
  rw [if_neg (fun hc => Pt.noConfusion hc)]
  by_cases hcase : xR < nOrd
  · have hrx : r = xR := by rw [hr_eq, Nat.mod_eq_of_lt hcase]
    have htest : gejEqXVar r (.aff xR yP) = true := by
      simp only [gejEqXVar, beq_iff_eq]
      rw [hrx, Nat.mod_eq_of_lt hxlt]
    rw [if_pos htest]
  · have hlt2n : xR < 2 * nOrd := lt_trans hxlt pF_lt_two_nOrd
    have hge : nOrd ≤ xR := le_of_not_lt hcase
    have hreq : r = xR - nOrd := by
      rw [hr_eq, Nat.mod_eq_sub_mod hge, Nat.mod_eq_of_lt (by omega)]
    have hrpF : r < pF := by
      have := pMinusOrd_add
      omega
    have htest1 : gejEqXVar r (.aff xR yP) = false := by
      simp only [gejEqXVar]
      rw [Nat.mod_eq_of_lt hrpF]
      have : r ≠ xR := by omega
      simpa using this
    rw [if_neg (by rw [htest1]; exact Bool.false_ne_true)]
    have hnoskip : ¬(pMinusOrd ≤ r) := by
      have := pMinusOrd_add
      omega
    rw [if_neg hnoskip]
    have htest2 : gejEqXVar (r + nOrd) (.aff xR yP) = true := by
      simp only [gejEqXVar, beq_iff_eq]
      have : r + nOrd = xR := by omega
      rw [this, Nat.mod_eq_of_lt hxlt]
    rw [if_pos htest2]

/-- C2: sign/verify consistency — a successfully produced signature on `msg`
under `seckey` verifies against the public key `seckey·G`. -/
theorem sign_verify_consistent (seckey msg nonce : Nat)
    (hsk0 : 0 < seckey) (hskn : seckey < nOrd) (hmsg : msg < nOrd)
    (hn0 : 0 < nonce) (hnn : nonce < nOrd)
    (hok : (sigSign seckey msg nonce).ok = true) :
    sigVerify (sigSign seckey msg nonce).r (sigSign seckey msg nonce).s
      (ecmultGen seckey) msg = true := by
  obtain ⟨hr_ne, hs_ne⟩ := (sigSign_ok_iff _ _ _).mp hok
  have hRs := ecmultGen_sound nonce (lt_trans hnn nOrd_lt_2_pow)
  have hRne0 : toPoint (ecmultGen nonce) ≠ 0 := by
    rw [hRs.2, Ne, nsmul_PG_eq_zero_iff]
    intro hdvd
    have := Nat.le_of_dvd hn0 hdvd
    omega
  obtain ⟨xR, yR, hR⟩ : ∃ x y, ecmultGen nonce = .aff x y := by
    cases hE : ecmultGen nonce with
    | inf => rw [hE, toPoint_inf] at hRne0; exact absurd rfl hRne0
    | aff x y => exact ⟨x, y, rfl⟩
  have hxRlt : xR < pF := by
    have h1 := hRs.1
    rw [hR] at h1
    exact h1.1
  set r := (sigSign seckey msg nonce).r with hrdef
  set s := (sigSign seckey msg nonce).s with hsdef
  have hr_eq : r = xR % nOrd := by
    rw [hrdef, sigSign_r, hR]
    simp only [ptX]
  have hrlt : r < nOrd := by
    rw [hr_eq]
    exact Nat.mod_lt _ nOrd_pos
  have hslt : s < nOrd := sigSign_s_lt _ _ _
  -- the sign of s relative to the raw s₀
  obtain ⟨ε, hε, hsCast⟩ : ∃ ε : ZMod nOrd, (ε = 1 ∨ ε = -1) ∧
      ((s : Nat) : ZMod nOrd) = ε * ((signS0 seckey msg nonce : Nat) : ZMod nOrd) := by
    rw [hsdef, sigSign_s_eq]
    by_cases h : nOrd / 2 < signS0 seckey msg nonce
    · refine ⟨-1, Or.inr rfl, ?_⟩
      rw [if_pos h, ZMod.natCast_mod, natCast_nOrd_sub (le_of_lt (signS0_lt _ _ _)),
        neg_one_mul]
    · exact ⟨1, Or.inl rfl, by rw [if_neg h, one_mul]⟩
  have hnZ : ((nonce : Nat) : ZMod nOrd) ≠ 0 := zmod_nOrd_nat_ne_zero hnn (by omega)
  set C : ZMod nOrd := ((r : Nat) : ZMod nOrd) * (seckey : ZMod nOrd) + (msg : ZMod nOrd)
    with hCdef
  have hs0Cast : ((signS0 seckey msg nonce : Nat) : ZMod nOrd) =
      ((nonce : Nat) : ZMod nOrd)⁻¹ * C := by
    rw [signS0_cast, invN_cast hnZ, hCdef, hr_eq, hR]
    simp only [ptX]
  have hsne0Z : ((s : Nat) : ZMod nOrd) ≠ 0 := zmod_nOrd_nat_ne_zero hslt hs_ne
  have hCne : C ≠ 0 := by
    intro hc
    apply hsne0Z
    rw [hsCast, hs0Cast, hc, mul_zero, mul_zero]
  set u2 := invN s * r % nOrd with hu2
  set u1 := invN s * msg % nOrd with hu1
  have hu2c : ((u2 : Nat) : ZMod nOrd) = ((s : Nat) : ZMod nOrd)⁻¹ * ((r : Nat) : ZMod nOrd) := by
    rw [hu2, ZMod.natCast_mod, Nat.cast_mul, invN_cast hsne0Z]
  have hu1c : ((u1 : Nat) : ZMod nOrd) = ((s : Nat) : ZMod nOrd)⁻¹ * (msg : ZMod nOrd) := by
    rw [hu1, ZMod.natCast_mod, Nat.cast_mul, invN_cast hsne0Z]
  have hsinv : ((s : Nat) : ZMod nOrd)⁻¹ = ε * ((nonce : Nat) : ZMod nOrd) * C⁻¹ := by
    apply inv_eq_of_mul_eq_one_right
    rw [hsCast, hs0Cast]
    have hε2 : ε * ε = 1 := by rcases hε with h | h <;> rw [h] <;> ring
    field_simp
    linear_combination (((nonce : Nat) : ZMod nOrd) * C) * hε2
  have hscalar : ((u2 * seckey + u1 : Nat) : ZMod nOrd) = ε * ((nonce : Nat) : ZMod nOrd) := by
    rw [Nat.cast_add, Nat.cast_mul, hu2c, hu1c, hsinv]
    have hexp : ε * ((nonce : Nat) : ZMod nOrd) * C⁻¹ * ((r : Nat) : ZMod nOrd) *
          (seckey : ZMod nOrd) + ε * ((nonce : Nat) : ZMod nOrd) * C⁻¹ * (msg : ZMod nOrd) =
        ε * ((nonce : Nat) : ZMod nOrd) * (C⁻¹ * C) := by
      rw [hCdef]
      ring
    rw [hexp, inv_mul_cancel₀ hCne, mul_one]
  have hpubS := ecmultGen_sound seckey (lt_trans hskn nOrd_lt_2_pow)
  have hu2lt : u2 < nOrd := by rw [hu2]; exact Nat.mod_lt _ nOrd_pos
  have hu1lt : u1 < nOrd := by rw [hu1]; exact Nat.mod_lt _ nOrd_pos
  have hprS := ecmult_sound (ecmultGen seckey) u2 u1 hpubS.1
    (lt_trans hu2lt nOrd_lt_2_pow) (lt_trans hu1lt nOrd_lt_2_pow)
  have hprtp : toPoint (ecmult (ecmultGen seckey) u2 u1) =
      ((u2 * seckey + u1) % nOrd) • toPoint ptG := by
    rw [hprS.2, hpubS.2, smul_smul, ← add_nsmul, nsmul_PG_mod]
  rcases hε with hε1 | hεm1
  · -- s has the raw sign: the recomputed point is R itself
    have hmod : (u2 * seckey + u1) % nOrd = nonce := by
      have hc : ((u2 * seckey + u1 : Nat) : ZMod nOrd) = ((nonce : Nat) : ZMod nOrd) := by
        rw [hscalar, hε1, one_mul]
      have h2 := (ZMod.natCast_eq_natCast_iff' _ _ _).mp hc
      rwa [Nat.mod_eq_of_lt hnn] at h2
    have hpr_eq : ecmult (ecmultGen seckey) u2 u1 = ecmultGen nonce := by
      apply toPoint_inj _ _ hprS.1 hRs.1
      rw [hprtp, hmod, hRs.2]
    exact verify_final r s (ecmultGen seckey) msg xR yR hr_ne hs_ne
      (by rw [← hu2, ← hu1, hpr_eq, hR]) hxRlt hr_eq
  · -- s was negated: the recomputed point is -R, same x-coordinate
    have hmod : (u2 * seckey + u1) % nOrd = nOrd - nonce := by
      have hc : ((u2 * seckey + u1 : Nat) : ZMod nOrd) = ((nOrd - nonce : Nat) : ZMod nOrd) := by
        rw [hscalar, hεm1, natCast_nOrd_sub (le_of_lt hnn)]
        ring
      have h2 := (ZMod.natCast_eq_natCast_iff' _ _ _).mp hc
      have hlt : nOrd - nonce < nOrd := by omega
      rwa [Nat.mod_eq_of_lt hlt] at h2
    have hneg : toPoint (ecmult (ecmultGen seckey) u2 u1) = -(toPoint (ecmultGen nonce)) := by
      rw [hprtp, hmod, hRs.2]
      apply eq_neg_of_add_eq_zero_left
      rw [← add_nsmul]
      have : nOrd - nonce + nonce = nOrd := by omega
      rw [this, nG_eq_zero]
    have hprne0 : toPoint (ecmult (ecmultGen seckey) u2 u1) ≠ 0 := by
      rw [hneg]
      exact neg_ne_zero.mpr hRne0
    obtain ⟨xP, yP, hpr⟩ : ∃ x y, ecmult (ecmultGen seckey) u2 u1 = .aff x y := by
      cases hE : ecmult (ecmultGen seckey) u2 u1 with
      | inf => rw [hE, toPoint_inf] at hprne0; exact absurd rfl hprne0
      | aff x y => exact ⟨x, y, rfl⟩
    have hprOn : onCurve (.aff xP yP) := by
      have h1 := hprS.1
      rwa [hpr] at h1
    have hROn : onCurve (.aff xR yR) := by
      have h1 := hRs.1
      rwa [hR] at h1
    have hcoords : ((xP : Nat) : ZMod pF) = ((xR : Nat) : ZMod pF) := by
      have h1 : toPoint (.aff xP yP) = -(toPoint (.aff xR yR)) := by
        rw [← hpr, ← hR, hneg]
      rw [toPoint_aff hprOn, toPoint_aff hROn,
        WeierstrassCurve.Affine.Point.neg_some] at h1
      have hc := congrArg ptCoords h1
      simp only [ptCoords, Option.some.injEq, Prod.mk.injEq] at hc
      exact hc.1
    have hxPxR : xP = xR := natEq_of_castEq hprOn.1 hROn.1 hcoords
    subst hxPxR
    exact verify_final r s (ecmultGen seckey) msg xP yP hr_ne hs_ne
      (by rw [← hu2, ← hu1, hpr]) hxRlt hr_eq

/-- Witness for C2 at seckey = 1, msg = 1, nonce = 2. -/
theorem sign_verify_consistent_witness :
    sigVerify (sigSign 1 1 2).r (sigSign 1 1 2).s (ecmultGen 1) 1 = true :=
  sign_verify_consistent 1 1 2 (by decide) (by decide) (by decide) (by decide) (by decide)
    (by decide)

/-- C10: the verifier does not enforce low-s — for a public key `d·G`, a non-zero
`s < n` and its negation `n - s` verify identically against any `r` and message. -/
theorem verify_negated_s (r s msg d : Nat) (hs0 : 0 < s) (hsn : s < nOrd) (hd : d < nOrd) :
    sigVerify r s (ecmultGen d) msg = sigVerify r (nOrd - s) (ecmultGen d) msg := by
  by_cases hr : r = 0
  · simp [sigVerify, hr]
  · have hsne : s ≠ 0 := by omega
    have hs'ne : nOrd - s ≠ 0 := by omega
    have hs'lt : nOrd - s < nOrd := by omega
    have h1 : ¬(r = 0 ∨ s = 0) := fun hc => hc.elim hr hsne
    have h1' : ¬(r = 0 ∨ nOrd - s = 0) := fun hc => hc.elim hr hs'ne
    have hsZ : ((s : Nat) : ZMod nOrd) ≠ 0 := zmod_nOrd_nat_ne_zero hsn hsne
    have hs'cast : ((nOrd - s : Nat) : ZMod nOrd) = -((s : Nat) : ZMod nOrd) :=
      natCast_nOrd_sub (le_of_lt hsn)
    have hs'Z : ((nOrd - s : Nat) : ZMod nOrd) ≠ 0 := by
      rw [hs'cast]
      exact neg_ne_zero.mpr hsZ
    set u2 := invN s * r % nOrd with hu2
    set u1 := invN s * msg % nOrd with hu1
    set v2 := invN (nOrd - s) * r % nOrd with hv2
    set v1 := invN (nOrd - s) * msg % nOrd with hv1
    have hu2c : ((u2 : Nat) : ZMod nOrd) =
        ((s : Nat) : ZMod nOrd)⁻¹ * (r : ZMod nOrd) := by
      rw [hu2, ZMod.natCast_mod, Nat.cast_mul, invN_cast hsZ]
    have hu1c : ((u1 : Nat) : ZMod nOrd) =
        ((s : Nat) : ZMod nOrd)⁻¹ * (msg : ZMod nOrd) := by
      rw [hu1, ZMod.natCast_mod, Nat.cast_mul, invN_cast hsZ]
    have hv2c : ((v2 : Nat) : ZMod nOrd) =
        -((s : Nat) : ZMod nOrd)⁻¹ * (r : ZMod nOrd) := by
      rw [hv2, ZMod.natCast_mod, Nat.cast_mul, invN_cast hs'Z, hs'cast, inv_neg]
    have hv1c : ((v1 : Nat) : ZMod nOrd) =
        -((s : Nat) : ZMod nOrd)⁻¹ * (msg : ZMod nOrd) := by
      rw [hv1, ZMod.natCast_mod, Nat.cast_mul, invN_cast hs'Z, hs'cast, inv_neg]
    have hpubS := ecmultGen_sound d (lt_trans hd nOrd_lt_2_pow)
    have hu2lt : u2 < nOrd := by rw [hu2]; exact Nat.mod_lt _ nOrd_pos
    have hu1lt : u1 < nOrd := by rw [hu1]; exact Nat.mod_lt _ nOrd_pos
    have hv2lt : v2 < nOrd := by rw [hv2]; exact Nat.mod_lt _ nOrd_pos
    have hv1lt : v1 < nOrd := by rw [hv1]; exact Nat.mod_lt _ nOrd_pos
    have hA := ecmult_sound (ecmultGen d) u2 u1 hpubS.1
      (lt_trans hu2lt nOrd_lt_2_pow) (lt_trans hu1lt nOrd_lt_2_pow)
    have hB := ecmult_sound (ecmultGen d) v2 v1 hpubS.1
      (lt_trans hv2lt nOrd_lt_2_pow) (lt_trans hv1lt nOrd_lt_2_pow)
    have hAtp : toPoint (ecmult (ecmultGen d) u2 u1) = (u2 * d + u1) • toPoint ptG := by
      rw [hA.2, hpubS.2, smul_smul, ← add_nsmul]
    have hBtp : toPoint (ecmult (ecmultGen d) v2 v1) = (v2 * d + v1) • toPoint ptG := by
      rw [hB.2, hpubS.2, smul_smul, ← add_nsmul]
    have hdvd : nOrd ∣ v2 * d + v1 + (u2 * d + u1) := by
      have hc : ((v2 * d + v1 + (u2 * d + u1) : Nat) : ZMod nOrd) = ((0 : Nat) : ZMod nOrd) := by
        push_cast
        rw [hu2c, hu1c, hv2c, hv1c]
        ring
      have h2 := (ZMod.natCast_eq_natCast_iff' _ _ _).mp hc
      rw [Nat.zero_mod] at h2
      exact Nat.dvd_of_mod_eq_zero h2
    have hneg : toPoint (ecmult (ecmultGen d) v2 v1) =
        -(toPoint (ecmult (ecmultGen d) u2 u1)) := by
      apply eq_neg_of_add_eq_zero_left
      rw [hBtp, hAtp, ← add_nsmul]
      exact (nsmul_PG_eq_zero_iff _).mpr hdvd
    by_cases hinf : ecmult (ecmultGen d) u2 u1 = .inf
    · have hBinf : ecmult (ecmultGen d) v2 v1 = .inf := by
        apply (toPoint_eq_zero_iff _ hB.1).mp
        rw [hneg, hinf, toPoint_inf, neg_zero]
      unfold sigVerify
      rw [← hu2, ← hu1, ← hv2, ← hv1, hinf, hBinf, if_neg h1, if_neg h1']
    · have hBne : ecmult (ecmultGen d) v2 v1 ≠ .inf := by
        intro hc
        apply hinf
        apply (toPoint_eq_zero_iff _ hA.1).mp
        rw [hc, toPoint_inf] at hneg
        exact neg_eq_zero.mp hneg.symm
      obtain ⟨xA, yA, hAeq⟩ : ∃ x y, ecmult (ecmultGen d) u2 u1 = .aff x y := by
        cases hE : ecmult (ecmultGen d) u2 u1 with
        | inf => exact absurd hE hinf
        | aff x y => exact ⟨x, y, rfl⟩
      obtain ⟨xB, yB, hBeq⟩ : ∃ x y, ecmult (ecmultGen d) v2 v1 = .aff x y := by
        cases hE : ecmult (ecmultGen d) v2 v1 with
        | inf => exact absurd hE hBne
        | aff x y => exact ⟨x, y, rfl⟩
      have hAon : onCurve (.aff xA yA) := by
        have h2 := hA.1
        rwa [hAeq] at h2
      have hBon : onCurve (.aff xB yB) := by
        have h2 := hB.1
        rwa [hBeq] at h2
      have hx : xB = xA := by
        have h2 : toPoint (.aff xB yB) = -(toPoint (.aff xA yA)) := by
          rw [← hAeq, ← hBeq, hneg]
        rw [toPoint_aff hBon, toPoint_aff hAon,
          WeierstrassCurve.Affine.Point.neg_some] at h2
        have hc := congrArg ptCoords h2
        simp only [ptCoords, Option.some.injEq, Prod.mk.injEq] at hc
        exact natEq_of_castEq hBon.1 hAon.1 hc.1
      unfold sigVerify
      rw [← hu2, ← hu1, ← hv2, ← hv1, hAeq, hBeq, hx, if_neg h1, if_neg h1']
      simp only [gejEqXVar]
      rw [if_neg (fun hc => Pt.noConfusion hc), if_neg (fun hc => Pt.noConfusion hc)]

/-- Witness for C10 at r = 1, s = 1, msg = 1, d = 1. -/
theorem verify_negated_s_witness :
    sigVerify 1 1 (ecmultGen 1) 1 = sigVerify 1 (nOrd - 1) (ecmultGen 1) 1 :=
  verify_negated_s 1 1 1 1 (by decide) (by decide) (by decide)

end Timestamping
